import Mathlib

/-!
Verification of the RAG FAQ chatbot's retrieval-and-logging core.

The development shallowly embeds the TypeScript sources: JSON values are an
inductive type, `JSON.parse` is a fuel-indexed recursive parser over character
lists, `JSON.stringify(v, null, 2)` is a recursive pretty-printer, and the
stateful pieces (query log file, environment, provider clients) are explicit
state-passing functions.  External collaborators (the embedding/completion
providers, the HNSW index, the system clock) are modelled as inputs.
-/

namespace RagFaq

/-! ## Character helpers

Named constants for the characters that are special to JSON, so that the
printer and the parser can share them. -/

/-- Left curly brace character. -/
def lbrace : Char := Char.ofNat 123

/-- Right curly brace character. -/
def rbrace : Char := Char.ofNat 125

/-- Left square bracket character. -/
def lbrack : Char := Char.ofNat 91

/-- Right square bracket character. -/
def rbrack : Char := Char.ofNat 93

/-- Double-quote character. -/
def dquote : Char := Char.ofNat 34

/-- Backslash character. -/
def bslash : Char := Char.ofNat 92

/-- Carriage-return character. -/
def crChar : Char := Char.ofNat 13

/-- JSON insignificant whitespace: space, tab, newline, carriage return. -/
def isWsChar (c : Char) : Bool :=
  c = ' ' || c = '\t' || c = '\n' || c = crChar

/-- Drop leading JSON whitespace. -/
def skipWs : List Char → List Char
  | [] => []
  | c :: cs => if isWsChar c then skipWs cs else c :: cs

theorem skipWs_not_ws {c : Char} (h : isWsChar c = false) (cs : List Char) :
    skipWs (c :: cs) = c :: cs := by
  simp [skipWs, h]

theorem skipWs_space (cs : List Char) : skipWs (' ' :: cs) = skipWs cs := by
  simp [skipWs, isWsChar]

theorem skipWs_newline (cs : List Char) : skipWs ('\n' :: cs) = skipWs cs := by
  simp [skipWs, isWsChar]

theorem skipWs_replicate (n : Nat) (cs : List Char) :
    skipWs (List.replicate n ' ' ++ cs) = skipWs cs := by
  induction n with
  | zero => simp
  | succ k ih => simpa [List.replicate_succ, skipWs_space] using ih

theorem skipWs_length_le : ∀ cs : List Char, (skipWs cs).length ≤ cs.length := by
  intro cs
  induction cs with
  | nil => simp [skipWs]
  | cons c cs ih =>
    by_cases h : isWsChar c
    · simp only [skipWs, h, if_true]
      exact Nat.le_trans ih (Nat.le_succ _)
    · simp [skipWs, h]

/-! ## Decimal digits -/

/-- Decimal digit test, matching the character class used by `JSON.parse`
and `Number.parseInt` for decimal digits. -/
def isDigitChar (c : Char) : Bool := '0' ≤ c && c ≤ '9'

/-- Numeric value of a decimal digit character. -/
def digitVal (c : Char) : Nat := c.toNat - 48

/-- Decimal digit character of a value below ten. -/
def digitChar (d : Nat) : Char := Char.ofNat (48 + d)

theorem digitVal_digitChar {d : Nat} (h : d < 10) : digitVal (digitChar d) = d := by
  interval_cases d <;> decide

theorem isDigitChar_digitChar {d : Nat} (h : d < 10) : isDigitChar (digitChar d) = true := by
  interval_cases d <;> decide

theorem digitChar_ne_zero {d : Nat} (h : d < 10) (hd : d ≠ 0) : digitChar d ≠ '0' := by
  interval_cases d <;> simp_all <;> decide

/-- Least-significant-first list of decimal digits of a natural number;
empty for zero. -/
def natDigitsRev (n : Nat) : List Nat :=
  if h : n = 0 then [] else (n % 10) :: natDigitsRev (n / 10)
  termination_by n
  decreasing_by exact Nat.div_lt_self (Nat.pos_of_ne_zero h) (by omega)

/-- Value of a least-significant-first digit list. -/
def valLSD : List Nat → Nat
  | [] => 0
  | d :: ds => d + 10 * valLSD ds

theorem valLSD_natDigitsRev (n : Nat) : valLSD (natDigitsRev n) = n := by
  induction n using Nat.strong_induction_on with
  | _ n ih =>
    by_cases h : n = 0
    · subst h; simp [natDigitsRev, valLSD]
    · rw [natDigitsRev, dif_neg h]
      have hlt : n / 10 < n := Nat.div_lt_self (Nat.pos_of_ne_zero h) (by omega)
      simp only [valLSD, ih _ hlt]
      omega

theorem natDigitsRev_lt_ten (n : Nat) : ∀ d ∈ natDigitsRev n, d < 10 := by
  induction n using Nat.strong_induction_on with
  | _ n ih =>
    by_cases h : n = 0
    · subst h; simp [natDigitsRev]
    · rw [natDigitsRev, dif_neg h]
      intro d hd
      rcases List.mem_cons.mp hd with h1 | h2
      · subst h1; exact Nat.mod_lt _ (by omega)
      · exact ih _ (Nat.div_lt_self (Nat.pos_of_ne_zero h) (by omega)) d h2

theorem natDigitsRev_msd (n : Nat) (h : n ≠ 0) :
    ∃ ds d, natDigitsRev n = ds ++ [d] ∧ d ≠ 0 ∧ d < 10 := by
  induction n using Nat.strong_induction_on with
  | _ n ih =>
    rw [natDigitsRev, dif_neg h]
    by_cases h10 : n / 10 = 0
    · have hrec : natDigitsRev (n / 10) = [] := by rw [natDigitsRev, dif_pos h10]
      refine ⟨[], n % 10, by simp [hrec], ?_, Nat.mod_lt _ (by omega)⟩
      omega
    · have hlt : n / 10 < n := Nat.div_lt_self (Nat.pos_of_ne_zero h) (by omega)
      rcases ih _ hlt h10 with ⟨ds, d, heq, hne0, hlt10⟩
      exact ⟨n % 10 :: ds, d, by simp [heq], hne0, hlt10⟩

/-- Most-significant-first decimal digit characters of a natural number. -/
def natDigits (n : Nat) : List Char :=
  if n = 0 then ['0'] else ((natDigitsRev n).reverse.map digitChar)

theorem natDigits_ne_nil (n : Nat) : natDigits n ≠ [] := by
  by_cases h : n = 0
  · simp [natDigits, h]
  · have : natDigitsRev n ≠ [] := by rw [natDigitsRev, dif_neg h]; simp
    simp [natDigits, h, this]

theorem natDigits_all_digits (n : Nat) : ∀ c ∈ natDigits n, isDigitChar c = true := by
  by_cases h : n = 0
  · simp [natDigits, h]; decide
  · simp only [natDigits, if_neg h]
    intro c hc
    rcases List.mem_map.mp hc with ⟨d, hd, rfl⟩
    exact isDigitChar_digitChar (natDigitsRev_lt_ten n d (List.mem_reverse.mp hd))

/-! ## Digit-run scanning -/

/-- Greedily take leading decimal digit characters. -/
def takeDigits : List Char → List Char × List Char
  | [] => ([], [])
  | c :: cs =>
    if isDigitChar c then
      let p := takeDigits cs
      (c :: p.1, p.2)
    else ([], c :: cs)

/-- The head of the list, if any, is not a decimal digit. -/
def notDigitHead : List Char → Prop
  | [] => True
  | c :: _ => isDigitChar c = false

theorem takeDigits_append {ds rest : List Char}
    (hds : ∀ c ∈ ds, isDigitChar c = true) (hrest : notDigitHead rest) :
    takeDigits (ds ++ rest) = (ds, rest) := by
  induction ds with
  | nil =>
    cases rest with
    | nil => rfl
    | cons c t => simpa [takeDigits, notDigitHead] using hrest
  | cons d ds ih =>
    have hd : isDigitChar d = true := hds d (by simp)
    have ih' := ih (fun c hc => hds c (by simp [hc]))
    simp [takeDigits, hd, ih']

/-- Most-significant-first accumulation of digit characters onto `a`. -/
def msdVal (a : Nat) (ds : List Char) : Nat :=
  ds.foldl (fun x c => 10 * x + digitVal c) a

/-- Numeric value of a most-significant-first digit character run. -/
def digitsToNat (ds : List Char) : Nat := msdVal 0 ds

theorem msdVal_nil (a : Nat) : msdVal a [] = a := rfl

theorem msdVal_cons (a : Nat) (c : Char) (cs : List Char) :
    msdVal a (c :: cs) = msdVal (10 * a + digitVal c) cs := rfl

theorem msdVal_append (a : Nat) (ds es : List Char) :
    msdVal a (ds ++ es) = msdVal (msdVal a ds) es := by
  simp [msdVal, List.foldl_append]

theorem msdVal_zeros (k : Nat) (ds : List Char) :
    msdVal 0 (List.replicate k '0' ++ ds) = msdVal 0 ds := by
  induction k with
  | zero => simp
  | succ n ih =>
    have h0 : digitVal '0' = 0 := by decide
    rw [List.replicate_succ, List.cons_append, msdVal_cons, h0]
    simpa using ih

theorem msdVal_rev_map (a : Nat) (ls : List Nat) (h : ∀ d ∈ ls, d < 10) :
    msdVal a (ls.reverse.map digitChar) = a * 10 ^ ls.length + valLSD ls := by
  induction ls generalizing a with
  | nil => simp [msdVal, valLSD]
  | cons d ls ih =>
    have hd : d < 10 := h d (by simp)
    have hls : ∀ x ∈ ls, x < 10 := fun x hx => h x (by simp [hx])
    rw [List.reverse_cons, List.map_append, msdVal_append, ih a hls]
    simp only [List.map_cons, List.map_nil, msdVal_cons, msdVal_nil, valLSD,
      digitVal_digitChar hd, List.length_cons, pow_succ]
    ring

theorem digitsToNat_natDigits (n : Nat) : digitsToNat (natDigits n) = n := by
  by_cases h : n = 0
  · subst h
    rw [natDigits, if_pos rfl]
    decide
  · rw [natDigits, if_neg h]
    have := msdVal_rev_map 0 (natDigitsRev n) (natDigitsRev_lt_ten n)
    simpa [digitsToNat, valLSD_natDigitsRev] using this

theorem digitsToNat_pad (z n : Nat) :
    digitsToNat (List.replicate z '0' ++ natDigits n) = n := by
  have h1 : digitsToNat (List.replicate z '0' ++ natDigits n) = digitsToNat (natDigits n) :=
    msdVal_zeros z (natDigits n)
  rw [h1, digitsToNat_natDigits]

theorem natDigits_head (n : Nat) (h : n ≠ 0) :
    ∃ c t, natDigits n = c :: t ∧ isDigitChar c = true ∧ c ≠ '0' := by
  rcases natDigitsRev_msd n h with ⟨ds, d, heq, hne0, hlt10⟩
  refine ⟨digitChar d, ds.reverse.map digitChar, ?_, isDigitChar_digitChar hlt10,
    digitChar_ne_zero hlt10 hne0⟩
  rw [natDigits, if_neg h, heq]
  simp

theorem isDigitChar_ne {c x : Char} (hc : isDigitChar c = true)
    (hx : isDigitChar x = false) : c ≠ x := by
  rintro rfl; rw [hc] at hx; exact Bool.noConfusion hx

/-! ## JSON number literals

A JSON number literal is modelled by the pair `(m, e)` of its integer
mantissa and its power-of-ten exponent, denoting `m * 10 ^ e`; `8.7`
parses to `(87, -1)`.  This keeps literal-level arithmetic exact (the
JavaScript engine converts to binary floating point, which no claim
inspects). -/

/-- Digit string of `n` left-padded with zeros to at least `k + 1` digits. -/
def paddedDigits (n k : Nat) : List Char :=
  List.replicate (k + 1 - (natDigits n).length) '0' ++ natDigits n

/-- Digits of `n` with a decimal point placed `k` positions from the right. -/
def numPad (n k : Nat) : List Char :=
  (paddedDigits n k).take ((paddedDigits n k).length - k) ++
    '.' :: (paddedDigits n k).drop ((paddedDigits n k).length - k)

/-- Unsigned digits-and-point form of `n * 10 ^ e`. -/
def renderNumCore (n : Nat) (e : Int) : List Char :=
  if e = 0 then natDigits n
  else if 0 < e then natDigits n ++ 'e' :: natDigits e.toNat
  else numPad n (-e).toNat

/-- Printed digits-and-point form of the number `m * 10 ^ e`, such that
parsing it back recovers `(m, e)` exactly. -/
def renderNum (m : Int) (e : Int) : List Char :=
  (if m < 0 then ['-'] else []) ++ renderNumCore m.natAbs e

/-- Integer-part scan of a number literal: a leading `0` is taken alone
(JSON forbids leading zeros), otherwise the digit run is taken greedily. -/
def intStep : List Char → List Char × List Char
  | c :: rest => if c = '0' then (['0'], rest) else takeDigits (c :: rest)
  | [] => ([], [])

/-- Optional fraction part `.ddd`; a point not followed by a digit is left
unconsumed (the surrounding parse then fails, as `JSON.parse` does). -/
def parseFrac (cs : List Char) : List Char × Nat × List Char :=
  match cs with
  | c :: rest =>
    if c = '.' then
      match takeDigits rest with
      | ([], _) => ([], 0, cs)
      | (fds, r) => (fds, fds.length, r)
    else ([], 0, cs)
  | [] => ([], 0, cs)

/-- Optional exponent part `e[+-]ddd`; an `e` not followed by a digit is
left unconsumed. -/
def parseExp (cs : List Char) : Int × List Char :=
  match cs with
  | c :: rest =>
    if c = 'e' ∨ c = 'E' then
      let p : Bool × List Char :=
        match rest with
        | s :: r' => if s = '-' then (true, r') else if s = '+' then (false, r') else (false, rest)
        | [] => (false, rest)
      match takeDigits p.2 with
      | ([], _) => (0, cs)
      | (eds, r') => ((if p.1 then -(digitsToNat eds : Int) else (digitsToNat eds : Int)), r')
    else (0, cs)
  | [] => (0, cs)

/-- Parse an unsigned JSON number literal: integer part, optional fraction,
optional exponent.  Returns absolute mantissa, exponent and rest. -/
def parseUnsignedNumber (cs : List Char) : Option (Nat × Int × List Char) :=
  match cs with
  | [] => none
  | c :: rest =>
    if isDigitChar c then
      let q := intStep (c :: rest)
      let f := parseFrac q.2
      let x := parseExp f.2.2
      some (digitsToNat (q.1 ++ f.1), x.1 - (f.2.1 : Int), x.2)
    else none

/-- Parse a JSON number literal, returning mantissa, exponent and rest. -/
def parseNumber (cs : List Char) : Option (Int × Int × List Char) :=
  match cs with
  | [] => none
  | c :: rest =>
    if c = '-' then
      match parseUnsignedNumber rest with
      | some (a, e, r) => some (-(a : Int), e, r)
      | none => none
    else
      match parseUnsignedNumber (c :: rest) with
      | some (a, e, r) => some ((a : Int), e, r)
      | none => none

/-- Characters after a number literal must not extend it: no digit, no
decimal point, no exponent marker. -/
def numStop : List Char → Prop
  | [] => True
  | c :: _ => isDigitChar c = false ∧ c ≠ '.' ∧ c ≠ 'e' ∧ c ≠ 'E'

theorem numStop.toNotDigitHead {rest : List Char} (h : numStop rest) :
    notDigitHead rest := by
  cases rest with
  | nil => trivial
  | cons c t => exact h.1

theorem natDigits_head' (n : Nat) :
    ∃ c t, natDigits n = c :: t ∧ isDigitChar c = true := by
  cases hd : natDigits n with
  | nil => exact absurd hd (natDigits_ne_nil n)
  | cons c t =>
    exact ⟨c, t, rfl, natDigits_all_digits n c (by rw [hd]; simp)⟩

theorem intStep_natDigits (n : Nat) {rest : List Char} (hrest : notDigitHead rest) :
    intStep (natDigits n ++ rest) = (natDigits n, rest) := by
  by_cases h : n = 0
  · subst h
    rw [natDigits, if_pos rfl]
    simp [intStep]
  · rcases natDigits_head n h with ⟨c, t, hds, hdig, hne0⟩
    rw [hds]
    simp only [List.cons_append, intStep, if_neg hne0]
    have : takeDigits ((c :: t) ++ rest) = (c :: t, rest) :=
      takeDigits_append (by rw [← hds]; exact natDigits_all_digits n) hrest
    simpa using this

theorem parseFrac_digits {fp rest : List Char} (hfp : ∀ c ∈ fp, isDigitChar c = true)
    (hne : fp ≠ []) (hrest : notDigitHead rest) :
    parseFrac ('.' :: (fp ++ rest)) = (fp, fp.length, rest) := by
  have htd : takeDigits (fp ++ rest) = (fp, rest) := takeDigits_append hfp hrest
  cases fp with
  | nil => exact absurd rfl hne
  | cons c t =>
    simp only [List.cons_append] at htd
    simp [parseFrac, htd]

theorem parseFrac_stop {cs : List Char}
    (h : cs = [] ∨ ∃ c t, cs = c :: t ∧ c ≠ '.') :
    parseFrac cs = ([], 0, cs) := by
  rcases h with rfl | ⟨c, t, rfl, hne⟩
  · rfl
  · simp [parseFrac, hne]

theorem parseExp_digits (E : Nat) {rest : List Char} (hrest : notDigitHead rest) :
    parseExp ('e' :: (natDigits E ++ rest)) = ((E : Int), rest) := by
  rcases natDigits_head' E with ⟨c, t, hds, hdig⟩
  have hcm : c ≠ '-' := isDigitChar_ne hdig (by decide)
  have hcp : c ≠ '+' := isDigitChar_ne hdig (by decide)
  have htd : takeDigits (natDigits E ++ rest) = (natDigits E, rest) :=
    takeDigits_append (natDigits_all_digits E) hrest
  rw [hds] at htd
  rw [hds]
  simp only [List.cons_append] at htd ⊢
  simp [parseExp, hcm, hcp, htd]
  rw [← hds, digitsToNat_natDigits]

theorem parseExp_stop {cs : List Char}
    (h : cs = [] ∨ ∃ c t, cs = c :: t ∧ c ≠ 'e' ∧ c ≠ 'E') :
    parseExp cs = (0, cs) := by
  rcases h with rfl | ⟨c, t, rfl, hne, hnE⟩
  · rfl
  · have : ¬(c = 'e' ∨ c = 'E') := by tauto
    simp [parseExp, this]

theorem numStop_frac_arg {rest : List Char} (h : numStop rest) :
    rest = [] ∨ ∃ c t, rest = c :: t ∧ c ≠ '.' := by
  cases rest with
  | nil => exact Or.inl rfl
  | cons c t => exact Or.inr ⟨c, t, rfl, h.2.1⟩

theorem numStop_exp_arg {rest : List Char} (h : numStop rest) :
    rest = [] ∨ ∃ c t, rest = c :: t ∧ c ≠ 'e' ∧ c ≠ 'E' := by
  cases rest with
  | nil => exact Or.inl rfl
  | cons c t => exact Or.inr ⟨c, t, rfl, h.2.2.1, h.2.2.2⟩

theorem parseUnsignedNumber_cons {c : Char} {t : List Char} (h : isDigitChar c = true) :
    parseUnsignedNumber (c :: t) =
      some (digitsToNat ((intStep (c :: t)).1 ++ (parseFrac (intStep (c :: t)).2).1),
        (parseExp (parseFrac (intStep (c :: t)).2).2.2).1
          - ((parseFrac (intStep (c :: t)).2).2.1 : Int),
        (parseExp (parseFrac (intStep (c :: t)).2).2.2).2) := by
  simp [parseUnsignedNumber, h]

/-- The pipeline recovers `(n, -k)` from digits with an interior point. -/
theorem parseUnsignedNumber_numPad (n k : Nat) (hk1 : 1 ≤ k) (rest : List Char)
    (hrest : numStop rest) :
    parseUnsignedNumber (numPad n k ++ rest) = some (n, -(k : Int), rest) := by
  have hpadded0 : paddedDigits n k
      = List.replicate (k + 1 - (natDigits n).length) '0' ++ natDigits n := rfl
  rw [numPad]
  set ds := natDigits n with hds
  set padded := paddedDigits n k with hpad
  have hpadded : padded = List.replicate (k + 1 - ds.length) '0' ++ ds := hpadded0
  have hdigs : ∀ c ∈ padded, isDigitChar c = true := by
    intro c hc
    rw [hpadded] at hc
    rcases List.mem_append.mp hc with hrep | hmem
    · rw [List.eq_of_mem_replicate hrep]; decide
    · exact natDigits_all_digits n c hmem
  have hdsne : ds ≠ [] := natDigits_ne_nil n
  have hdslen : 1 ≤ ds.length := List.length_pos.mpr hdsne
  have hL : k + 1 ≤ padded.length := by
    rw [hpadded, List.length_append, List.length_replicate]
    omega
  set ip := padded.take (padded.length - k) with hip
  set fp := padded.drop (padded.length - k) with hfp
  have hipfp : ip ++ fp = padded := List.take_append_drop _ _
  have hfplen : fp.length = k := by
    rw [hfp, List.length_drop]; omega
  have hfpne : fp ≠ [] := by
    intro hcon
    rw [hcon] at hfplen
    simp at hfplen
    omega
  have hfpdigs : ∀ c ∈ fp, isDigitChar c = true :=
    fun c hc => hdigs c (List.drop_subset _ _ hc)
  have hipdigs : ∀ x ∈ ip, isDigitChar x = true :=
    fun x hx => hdigs x (List.take_subset _ _ hx)
  -- the integer part is a nonempty digit run, and `intStep` takes exactly it
  have hshape : ∃ c t', ip = c :: t' ∧ isDigitChar c = true ∧
      intStep (ip ++ ('.' :: (fp ++ rest))) = (ip, '.' :: (fp ++ rest)) := by
    by_cases hcase : ds.length ≤ k
    · have hrep1 : k + 1 - ds.length = (k - ds.length) + 1 := by omega
      have hpad' : padded = '0' :: (List.replicate (k - ds.length) '0' ++ ds) := by
        rw [hpadded, hrep1, List.replicate_succ]
        simp
      have hlen' : padded.length = k + 1 := by
        rw [hpadded, List.length_append, List.length_replicate]
        omega
      have hip1 : ip = ['0'] := by
        rw [hip, hlen']
        have h1 : k + 1 - k = 1 := by omega
        rw [h1, hpad']
        simp
      refine ⟨'0', [], hip1, by decide, ?_⟩
      rw [hip1]
      simp [intStep]
    · push_neg at hcase
      have hpad' : padded = ds := by
        rw [hpadded]
        have hz : k + 1 - ds.length = 0 := by omega
        rw [hz]
        simp
      have hn0 : n ≠ 0 := by
        intro hcon
        have h1 : ds = ['0'] := by rw [hds, hcon, natDigits, if_pos rfl]
        rw [h1] at hcase
        simp at hcase
        omega
      rcases natDigits_head n hn0 with ⟨c, t, hds', hdig, hne0⟩
      have hlen2 : (c :: t).length - k = (t.length - k) + 1 := by
        have hc2 : k < (c :: t).length := by rw [← hds', ← hds]; exact hcase
        simp only [List.length_cons] at hc2 ⊢
        omega
      have hipcons : ip = c :: t.take (t.length - k) := by
        rw [hip, hpad', hds, hds', hlen2, List.take_succ_cons]
      refine ⟨c, t.take (t.length - k), hipcons, hdig, ?_⟩
      have htk : takeDigits (ip ++ ('.' :: (fp ++ rest))) = (ip, '.' :: (fp ++ rest)) :=
        takeDigits_append hipdigs (by simp [notDigitHead]; decide)
      rw [hipcons] at htk ⊢
      simp only [List.cons_append, intStep, if_neg hne0]
      simpa using htk
  rcases hshape with ⟨c, t', hipc, hdig, hintstep⟩
  have harr : ip ++ ('.' :: (fp ++ rest)) = c :: (t' ++ ('.' :: (fp ++ rest))) := by
    rw [hipc]; simp
  have hgoal : ip ++ '.' :: fp ++ rest = ip ++ ('.' :: (fp ++ rest)) := by simp
  rw [hgoal, harr, parseUnsignedNumber_cons hdig, ← harr, hintstep]
  simp only
  rw [parseFrac_digits hfpdigs hfpne hrest.toNotDigitHead]
  simp only
  rw [parseExp_stop (numStop_exp_arg hrest)]
  simp only
  have hval : digitsToNat (ip ++ fp) = n := by
    rw [hipfp, hpadded, hds]
    exact digitsToNat_pad _ n
  rw [hval, hfplen]
  simp

/-- The composed unsigned pipeline recovers `(n, e)` from the printed core. -/
theorem parseUnsignedNumber_renderNumCore (n : Nat) (e : Int) (rest : List Char)
    (hrest : numStop rest) :
    parseUnsignedNumber (renderNumCore n e ++ rest) = some (n, e, rest) := by
  rcases lt_trichotomy e 0 with hneg | rfl | hpos
  · -- negative exponent: digits with an interior decimal point
    have hE0 : ¬ e = 0 := by omega
    have hEn : ¬ 0 < e := by omega
    rw [renderNumCore]
    simp only [if_neg hE0, if_neg hEn]
    have hk1 : 1 ≤ (-e).toNat := by omega
    rw [parseUnsignedNumber_numPad n (-e).toNat hk1 rest hrest]
    have hcast : -(((-e).toNat : Nat) : Int) = e := by omega
    rw [hcast]
  · -- zero exponent: plain digit run
    rcases natDigits_head' n with ⟨c, t, hds, hdig⟩
    have hcore : renderNumCore n 0 = natDigits n := by
      rw [renderNumCore]; simp
    have harr : renderNumCore n 0 ++ rest = c :: (t ++ rest) := by
      rw [hcore, hds]; simp
    rw [harr, parseUnsignedNumber_cons hdig, ← harr, hcore,
      intStep_natDigits n hrest.toNotDigitHead]
    simp only
    rw [parseFrac_stop (numStop_frac_arg hrest)]
    simp only
    rw [parseExp_stop (numStop_exp_arg hrest)]
    simp only
    rw [List.append_nil, digitsToNat_natDigits]
    simp
  · -- positive exponent: digit run with exponent marker
    have hE0 : ¬ e = 0 := by omega
    rcases natDigits_head' n with ⟨c, t, hds, hdig⟩
    have hcore : renderNumCore n e = natDigits n ++ 'e' :: natDigits e.toNat := by
      rw [renderNumCore]
      simp [hE0, hpos]
    have harr : renderNumCore n e ++ rest
        = c :: (t ++ ('e' :: (natDigits e.toNat ++ rest))) := by
      rw [hcore, hds]; simp
    have harr2 : renderNumCore n e ++ rest
        = natDigits n ++ ('e' :: (natDigits e.toNat ++ rest)) := by
      rw [hcore]; simp
    rw [harr, parseUnsignedNumber_cons hdig, ← harr, harr2,
      intStep_natDigits n (by simp [notDigitHead]; decide)]
    simp only
    rw [parseFrac_stop (Or.inr ⟨'e', _, rfl, by decide⟩)]
    simp only
    rw [parseExp_digits e.toNat hrest.toNotDigitHead]
    simp only
    rw [List.append_nil, digitsToNat_natDigits]
    have : (e.toNat : Int) - (0 : Nat) = e := by omega
    rw [this]

/-- The digits-with-point form starts with a decimal digit. -/
theorem numPad_head (n k : Nat) (hk1 : 1 ≤ k) :
    ∃ c t, numPad n k = c :: t ∧ isDigitChar c = true := by
  have hpadded0 : paddedDigits n k
      = List.replicate (k + 1 - (natDigits n).length) '0' ++ natDigits n := rfl
  rw [numPad]
  set ds := natDigits n with hds
  set padded := paddedDigits n k with hpad
  have hpadded : padded = List.replicate (k + 1 - ds.length) '0' ++ ds := hpadded0
  have hdslen : 1 ≤ ds.length := List.length_pos.mpr (natDigits_ne_nil n)
  have hL : k + 1 ≤ padded.length := by
    rw [hpadded, List.length_append, List.length_replicate]
    omega
  have hiplen : (padded.take (padded.length - k)).length = padded.length - k := by
    rw [List.length_take]
    omega
  cases hip : padded.take (padded.length - k) with
  | nil =>
    rw [hip] at hiplen
    simp at hiplen
    omega
  | cons c t =>
    refine ⟨c, t ++ '.' :: padded.drop (padded.length - k), by simp, ?_⟩
    have hmem : c ∈ padded := List.take_subset _ _ (by rw [hip]; simp)
    rw [hpadded] at hmem
    rcases List.mem_append.mp hmem with hrep | hm
    · rw [List.eq_of_mem_replicate hrep]; decide
    · exact natDigits_all_digits n c hm

/-- The printed core always starts with a decimal digit. -/
theorem renderNumCore_head (n : Nat) (e : Int) :
    ∃ c t, renderNumCore n e = c :: t ∧ isDigitChar c = true := by
  rcases natDigits_head' n with ⟨c0, t0, hds0, hdig0⟩
  rcases lt_trichotomy e 0 with hneg | rfl | hpos
  · have hE0 : ¬ e = 0 := by omega
    have hEn : ¬ 0 < e := by omega
    rw [renderNumCore]
    simp only [if_neg hE0, if_neg hEn]
    exact numPad_head n (-e).toNat (by omega)
  · exact ⟨c0, t0, by rw [renderNumCore]; simpa using hds0, hdig0⟩
  · have hE0 : ¬ e = 0 := by omega
    refine ⟨c0, t0 ++ 'e' :: natDigits e.toNat, ?_, hdig0⟩
    rw [renderNumCore]
    simp only [if_neg hE0, if_pos hpos]
    rw [hds0]
    simp

/-- Parsing a printed JSON number recovers the mantissa and exponent. -/
theorem parseNumber_renderNum (m e : Int) (rest : List Char) (hrest : numStop rest) :
    parseNumber (renderNum m e ++ rest) = some (m, e, rest) := by
  rw [renderNum]
  by_cases hm : m < 0
  · simp only [if_pos hm, List.cons_append, List.nil_append]
    rw [parseNumber, if_pos rfl, parseUnsignedNumber_renderNumCore m.natAbs e rest hrest]
    have habs : -(m.natAbs : Int) = m := by omega
    show some (-(m.natAbs : Int), e, rest) = some (m, e, rest)
    rw [habs]
  · simp only [if_neg hm, List.nil_append]
    rcases renderNumCore_head m.natAbs e with ⟨c, t, hcore, hdig⟩
    have hcne : c ≠ '-' := isDigitChar_ne hdig (by decide)
    have harr : renderNumCore m.natAbs e ++ rest = c :: (t ++ rest) := by
      rw [hcore]; simp
    rw [harr, parseNumber, if_neg hcne, ← harr,
      parseUnsignedNumber_renderNumCore m.natAbs e rest hrest]
    have habs : (m.natAbs : Int) = m := by omega
    show some ((m.natAbs : Int), e, rest) = some (m, e, rest)
    rw [habs]

/-! ## JSON string literals -/

/-- Concatenation of the images of `f` over a list. -/
def concatMap {α β : Type} (f : α → List β) : List α → List β
  | [] => []
  | a :: as => f a ++ concatMap f as

/-- Hex digit character, lowercase for values ten to fifteen. -/
def hexDigitChar (d : Nat) : Char :=
  Char.ofNat (if d < 10 then 48 + d else 87 + d)

/-- Value of a hex digit character. -/
def hexVal (c : Char) : Option Nat :=
  if isDigitChar c then some (digitVal c)
  else if 'a' ≤ c && c ≤ 'f' then some (c.toNat - 87)
  else if 'A' ≤ c && c ≤ 'F' then some (c.toNat - 55)
  else none

theorem hexVal_hexDigitChar {d : Nat} (h : d < 16) : hexVal (hexDigitChar d) = some d := by
  interval_cases d <;> decide

/-- Combined value of four hex digit characters. -/
def hex4 (a b c d : Char) : Option Nat :=
  match hexVal a, hexVal b, hexVal c, hexVal d with
  | some x, some y, some z, some w => some (((x * 16 + y) * 16 + z) * 16 + w)
  | _, _, _, _ => none

theorem hex4_eval {a b c d : Char} {x y z w : Nat} (ha : hexVal a = some x)
    (hb : hexVal b = some y) (hc : hexVal c = some z) (hd : hexVal d = some w) :
    hex4 a b c d = some (((x * 16 + y) * 16 + z) * 16 + w) := by
  simp [hex4, ha, hb, hc, hd]

/-- Escaping of one character as performed by `JSON.stringify`: quote,
backslash, the named control escapes, and `\u00XX` for other control
characters; everything else passes through verbatim. -/
def escChar (c : Char) : List Char :=
  if c = dquote then [bslash, dquote]
  else if c = bslash then [bslash, bslash]
  else if c = '\n' then [bslash, 'n']
  else if c = crChar then [bslash, 'r']
  else if c = '\t' then [bslash, 't']
  else if c = Char.ofNat 8 then [bslash, 'b']
  else if c = Char.ofNat 12 then [bslash, 'f']
  else if c.toNat < 32 then
    [bslash, 'u', '0', '0', hexDigitChar (c.toNat / 16), hexDigitChar (c.toNat % 16)]
  else [c]

/-- Printed JSON string literal, quotes included. -/
def renderStr (s : String) : List Char :=
  dquote :: concatMap escChar s.data ++ [dquote]

/-- Decode one escape sequence following a backslash: the named escapes
plus `\u` followed by four hex digits.  `\uXXXX` escapes denoting
surrogate halves are rejected (a Lean `Char` cannot hold them; no printed
output contains them). -/
def decodeEscapeAt : List Char → Option (Char × List Char)
  | [] => none
  | e :: cs =>
    if e = dquote then some (dquote, cs)
    else if e = bslash then some (bslash, cs)
    else if e = '/' then some ('/', cs)
    else if e = 'b' then some (Char.ofNat 8, cs)
    else if e = 'f' then some (Char.ofNat 12, cs)
    else if e = 'n' then some ('\n', cs)
    else if e = 'r' then some (crChar, cs)
    else if e = 't' then some ('\t', cs)
    else if e = 'u' then
      match cs with
      | h1 :: h2 :: h3 :: h4 :: cs2 =>
        match hex4 h1 h2 h3 h4 with
        | some code =>
          if Nat.isValidChar code then some (Char.ofNat code, cs2) else none
        | none => none
      | _ => none
    else none

/-- Parse the body of a JSON string literal after the opening quote, up to
and including the closing quote.  The fuel argument bounds the number of
decoded characters; callers pass at least the input length. -/
def parseStringBody : Nat → List Char → Option (List Char × List Char)
  | 0, _ => none
  | _ + 1, [] => none
  | f + 1, c :: cs =>
    if c = dquote then some ([], cs)
    else if c = bslash then
      match decodeEscapeAt cs with
      | some (ch, rest) => (parseStringBody f rest).map (fun p => (ch :: p.1, p.2))
      | none => none
    else if c.toNat < 32 then none
    else (parseStringBody f cs).map (fun p => (c :: p.1, p.2))

theorem dea_unicode {c : Char} (h32 : c.toNat < 32) (x : List Char) :
    decodeEscapeAt ('u' :: '0' :: '0' ::
      hexDigitChar (c.toNat / 16) :: hexDigitChar (c.toNat % 16) :: x) = some (c, x) := by
  have hdiv : c.toNat / 16 < 16 := by omega
  have hmod : c.toNat % 16 < 16 := by omega
  have hcode : ((0 * 16 + 0) * 16 + c.toNat / 16) * 16 + c.toNat % 16 = c.toNat := by omega
  have hx4 : hex4 '0' '0' (hexDigitChar (c.toNat / 16)) (hexDigitChar (c.toNat % 16))
      = some c.toNat := by
    rw [@hex4_eval '0' '0' (hexDigitChar (c.toNat / 16)) (hexDigitChar (c.toNat % 16))
      0 0 (c.toNat / 16) (c.toNat % 16) (by decide) (by decide)
      (hexVal_hexDigitChar hdiv) (hexVal_hexDigitChar hmod), hcode]
  have hvalid : Nat.isValidChar c.toNat := Or.inl (by omega)
  show (match hex4 '0' '0' (hexDigitChar (c.toNat / 16)) (hexDigitChar (c.toNat % 16)) with
    | some code => if Nat.isValidChar code then some (Char.ofNat code, x) else none
    | none => none) = some (c, x)
  rw [hx4]
  show (if Nat.isValidChar c.toNat then some (Char.ofNat c.toNat, x) else none) = some (c, x)
  rw [if_pos hvalid, Char.ofNat_toNat]

theorem psb_fuel_quote (f : Nat) (x : List Char) :
    parseStringBody (f + 1) (dquote :: x) = some ([], x) := by
  simp only [parseStringBody]
  rw [if_pos trivial]

theorem psb_fuel_escape {cs : List Char} {ch : Char} {rest : List Char} (f : Nat)
    (h : decodeEscapeAt cs = some (ch, rest)) :
    parseStringBody (f + 1) (bslash :: cs)
      = (parseStringBody f rest).map (fun p => (ch :: p.1, p.2)) := by
  simp only [parseStringBody]
  rw [if_pos trivial, h, if_neg (by decide : ¬ (bslash = dquote))]

theorem psb_fuel_plain {c : Char} (h1 : c ≠ dquote) (h2 : c ≠ bslash)
    (h32 : ¬ c.toNat < 32) (f : Nat) (x : List Char) :
    parseStringBody (f + 1) (c :: x)
      = (parseStringBody f x).map (fun p => (c :: p.1, p.2)) := by
  simp only [parseStringBody]
  rw [if_neg h1, if_neg h2, if_neg h32]

/-- Parsing the escaped body plus closing quote recovers the characters. -/
theorem parseStringBody_escape (s : List Char) : ∀ (f : Nat), s.length < f →
    ∀ (rest : List Char),
    parseStringBody f (concatMap escChar s ++ (dquote :: rest)) = some (s, rest) := by
  induction s with
  | nil =>
    intro f hf rest
    cases f with
    | zero => omega
    | succ g =>
      show parseStringBody (g + 1) (dquote :: rest) = some ([], rest)
      exact psb_fuel_quote g rest
  | cons c cs ih =>
    intro f hf rest
    cases f with
    | zero => omega
    | succ g =>
      have hg : cs.length < g := by
        simp only [List.length_cons] at hf
        omega
      rw [concatMap, List.append_assoc]
      by_cases h1 : c = dquote
      · subst h1
        rw [show escChar dquote = [bslash, dquote] from rfl]
        rw [show ([bslash, dquote] : List Char) ++ (concatMap escChar cs ++ (dquote :: rest))
          = bslash :: dquote :: (concatMap escChar cs ++ (dquote :: rest)) from rfl]
        rw [psb_fuel_escape g (by rfl :
          decodeEscapeAt (dquote :: (concatMap escChar cs ++ (dquote :: rest)))
            = some (dquote, concatMap escChar cs ++ (dquote :: rest)))]
        rw [ih g hg rest]
        rfl
      · by_cases h2 : c = bslash
        · subst h2
          rw [show escChar bslash = [bslash, bslash] from rfl]
          rw [show ([bslash, bslash] : List Char) ++ (concatMap escChar cs ++ (dquote :: rest))
            = bslash :: bslash :: (concatMap escChar cs ++ (dquote :: rest)) from rfl]
          rw [psb_fuel_escape g (by rfl :
            decodeEscapeAt (bslash :: (concatMap escChar cs ++ (dquote :: rest)))
              = some (bslash, concatMap escChar cs ++ (dquote :: rest)))]
          rw [ih g hg rest]
          rfl
        · by_cases h3 : c = '\n'
          · subst h3
            rw [show escChar '\n' = [bslash, 'n'] from by decide]
            rw [show ([bslash, 'n'] : List Char) ++ (concatMap escChar cs ++ (dquote :: rest))
              = bslash :: 'n' :: (concatMap escChar cs ++ (dquote :: rest)) from rfl]
            rw [psb_fuel_escape g (by rfl :
              decodeEscapeAt ('n' :: (concatMap escChar cs ++ (dquote :: rest)))
                = some ('\n', concatMap escChar cs ++ (dquote :: rest)))]
            rw [ih g hg rest]
            rfl
          · by_cases h4 : c = crChar
            · subst h4
              rw [show escChar crChar = [bslash, 'r'] from by decide]
              rw [show ([bslash, 'r'] : List Char) ++ (concatMap escChar cs ++ (dquote :: rest))
                = bslash :: 'r' :: (concatMap escChar cs ++ (dquote :: rest)) from rfl]
              rw [psb_fuel_escape g (by rfl :
                decodeEscapeAt ('r' :: (concatMap escChar cs ++ (dquote :: rest)))
                  = some (crChar, concatMap escChar cs ++ (dquote :: rest)))]
              rw [ih g hg rest]
              rfl
            · by_cases h5 : c = '\t'
              · subst h5
                rw [show escChar '\t' = [bslash, 't'] from by decide]
                rw [show ([bslash, 't'] : List Char) ++ (concatMap escChar cs ++ (dquote :: rest))
                  = bslash :: 't' :: (concatMap escChar cs ++ (dquote :: rest)) from rfl]
                rw [psb_fuel_escape g (by rfl :
                  decodeEscapeAt ('t' :: (concatMap escChar cs ++ (dquote :: rest)))
                    = some ('\t', concatMap escChar cs ++ (dquote :: rest)))]
                rw [ih g hg rest]
                rfl
              · by_cases h6 : c = Char.ofNat 8
                · subst h6
                  rw [show escChar (Char.ofNat 8) = [bslash, 'b'] from by decide]
                  rw [show ([bslash, 'b'] : List Char)
                      ++ (concatMap escChar cs ++ (dquote :: rest))
                    = bslash :: 'b' :: (concatMap escChar cs ++ (dquote :: rest)) from rfl]
                  rw [psb_fuel_escape g (by rfl :
                    decodeEscapeAt ('b' :: (concatMap escChar cs ++ (dquote :: rest)))
                      = some (Char.ofNat 8, concatMap escChar cs ++ (dquote :: rest)))]
                  rw [ih g hg rest]
                  rfl
                · by_cases h7 : c = Char.ofNat 12
                  · subst h7
                    rw [show escChar (Char.ofNat 12) = [bslash, 'f'] from by decide]
                    rw [show ([bslash, 'f'] : List Char)
                        ++ (concatMap escChar cs ++ (dquote :: rest))
                      = bslash :: 'f' :: (concatMap escChar cs ++ (dquote :: rest)) from rfl]
                    rw [psb_fuel_escape g (by rfl :
                      decodeEscapeAt ('f' :: (concatMap escChar cs ++ (dquote :: rest)))
                        = some (Char.ofNat 12, concatMap escChar cs ++ (dquote :: rest)))]
                    rw [ih g hg rest]
                    rfl
                  · by_cases h32 : c.toNat < 32
                    · rw [show escChar c = [bslash, 'u', '0', '0',
                          hexDigitChar (c.toNat / 16), hexDigitChar (c.toNat % 16)] from by
                        rw [escChar, if_neg h1, if_neg h2, if_neg h3, if_neg h4, if_neg h5,
                          if_neg h6, if_neg h7, if_pos h32]]
                      rw [show ([bslash, 'u', '0', '0', hexDigitChar (c.toNat / 16),
                          hexDigitChar (c.toNat % 16)] : List Char)
                          ++ (concatMap escChar cs ++ (dquote :: rest))
                        = bslash :: 'u' :: '0' :: '0' :: hexDigitChar (c.toNat / 16) ::
                          hexDigitChar (c.toNat % 16) ::
                          (concatMap escChar cs ++ (dquote :: rest)) from rfl]
                      rw [psb_fuel_escape g (dea_unicode h32 _)]
                      rw [ih g hg rest]
                      rfl
                    · rw [show escChar c = [c] from by
                        rw [escChar, if_neg h1, if_neg h2, if_neg h3, if_neg h4, if_neg h5,
                          if_neg h6, if_neg h7, if_neg h32]]
                      rw [show ([c] : List Char) ++ (concatMap escChar cs ++ (dquote :: rest))
                        = c :: (concatMap escChar cs ++ (dquote :: rest)) from rfl]
                      rw [psb_fuel_plain h1 h2 h32 g]
                      rw [ih g hg rest]
                      rfl

/-! ## JSON values

`JSON.parse` / `JSON.stringify(v, null, 2)` are modelled over this value
type.  Numbers carry the literal's mantissa and power-of-ten exponent. -/

inductive Json where
  | null
  | bool (b : Bool)
  | num (mantissa : Int) (exp10 : Int)
  | str (s : String)
  | arr (elems : List Json)
  | obj (fields : List (String × Json))

mutual

/-- Pretty-printer mirroring `JSON.stringify(v, null, 2)` with the current
indentation `ind`: array and object members go one per line, indented two
spaces deeper, with `": "` after object keys. -/
def renderV : Nat → Json → List Char
  | _, .null => ['n', 'u', 'l', 'l']
  | _, .bool true => ['t', 'r', 'u', 'e']
  | _, .bool false => ['f', 'a', 'l', 's', 'e']
  | _, .num m e => renderNum m e
  | _, .str s => renderStr s
  | _, .arr [] => [lbrack, rbrack]
  | ind, .arr (v :: vs) =>
      lbrack :: '\n' :: (List.replicate (ind + 2) ' ' ++ renderV (ind + 2) v
        ++ renderElemsTail (ind + 2) vs ++ '\n' :: (List.replicate ind ' ' ++ [rbrack]))
  | _, .obj [] => [lbrace, rbrace]
  | ind, .obj ((k, v) :: fs) =>
      lbrace :: '\n' :: (List.replicate (ind + 2) ' ' ++ renderField (ind + 2) k v
        ++ renderFieldsTail (ind + 2) fs ++ '\n' :: (List.replicate ind ' ' ++ [rbrace]))

/-- One rendered object member: quoted key, colon, space, value. -/
def renderField : Nat → String → Json → List Char
  | ind, k, v => renderStr k ++ ':' :: ' ' :: renderV ind v

/-- Rendered continuation of an array: comma, newline, indent, member. -/
def renderElemsTail : Nat → List Json → List Char
  | _, [] => []
  | ind, v :: vs =>
      ',' :: '\n' :: (List.replicate ind ' ' ++ renderV ind v ++ renderElemsTail ind vs)

/-- Rendered continuation of an object: comma, newline, indent, member. -/
def renderFieldsTail : Nat → List (String × Json) → List Char
  | _, [] => []
  | ind, (k, v) :: fs =>
      ',' :: '\n' :: (List.replicate ind ' ' ++ renderField ind k v ++ renderFieldsTail ind fs)

end

/-- Top-level output of `JSON.stringify(v, null, 2)`. -/
def renderJson (j : Json) : String := ⟨renderV 0 j⟩

/-- Strip an expected literal from the front of the input. -/
def stripLit : List Char → List Char → Option (List Char)
  | [], cs => some cs
  | _ :: _, [] => none
  | l :: ls, c :: cs => if c = l then stripLit ls cs else none

mutual

/-- Fuel-indexed JSON value parser; assumes leading whitespace has been
skipped.  Mirrors the value grammar accepted by `JSON.parse`. -/
def parseVal : Nat → List Char → Option (Json × List Char)
  | 0, _ => none
  | _ + 1, [] => none
  | f + 1, c :: cs =>
    if c = lbrace then
      match skipWs cs with
      | [] => none
      | d :: r =>
        if d = rbrace then some (.obj [], r)
        else
          match parseFields f (d :: r) with
          | some (fs, r2) => some (.obj fs, r2)
          | none => none
    else if c = lbrack then
      match skipWs cs with
      | [] => none
      | d :: r =>
        if d = rbrack then some (.arr [], r)
        else
          match parseElems f (d :: r) with
          | some (vs, r2) => some (.arr vs, r2)
          | none => none
    else if c = dquote then
      match parseStringBody f cs with
      | some (s, r) => some (.str ⟨s⟩, r)
      | none => none
    else if c = 't' then
      match stripLit ['r', 'u', 'e'] cs with
      | some r => some (.bool true, r)
      | none => none
    else if c = 'f' then
      match stripLit ['a', 'l', 's', 'e'] cs with
      | some r => some (.bool false, r)
      | none => none
    else if c = 'n' then
      match stripLit ['u', 'l', 'l'] cs with
      | some r => some (.null, r)
      | none => none
    else if c = '-' || isDigitChar c then
      match parseNumber (c :: cs) with
      | some (m, e, r) => some (.num m e, r)
      | none => none
    else none

/-- Parse the members of a non-empty array, consuming the closing bracket. -/
def parseElems : Nat → List Char → Option (List Json × List Char)
  | 0, _ => none
  | f + 1, cs =>
    match parseVal f cs with
    | none => none
    | some (v, r) =>
      match skipWs r with
      | [] => none
      | c :: r1 =>
        if c = ',' then
          match parseElems f (skipWs r1) with
          | none => none
          | some (vs, r2) => some (v :: vs, r2)
        else if c = rbrack then some ([v], r1)
        else none

/-- Parse the members of a non-empty object, consuming the closing brace. -/
def parseFields : Nat → List Char → Option (List (String × Json) × List Char)
  | 0, _ => none
  | f + 1, cs =>
    match cs with
    | [] => none
    | c :: cs1 =>
      if c = dquote then
        match parseStringBody f cs1 with
        | none => none
        | some (k, r) =>
          match skipWs r with
          | [] => none
          | d :: r1 =>
            if d = ':' then
              match parseVal f (skipWs r1) with
              | none => none
              | some (v, r2) =>
                match skipWs r2 with
                | [] => none
                | e :: r3 =>
                  if e = ',' then
                    match parseFields f (skipWs r3) with
                    | none => none
                    | some (fs, r4) => some ((⟨k⟩, v) :: fs, r4)
                  else if e = rbrace then some ([(⟨k⟩, v)], r3)
                  else none
            else none
      else none

end

/-- `JSON.parse` over a character list: optional whitespace, one value,
optional whitespace, end of input. -/
def parseJsonChars (cs : List Char) : Option Json :=
  match parseVal (cs.length + 1) (skipWs cs) with
  | some (v, r) => if skipWs r = [] then some v else none
  | none => none

/-- `JSON.parse` of a string. -/
def parseJson (s : String) : Option Json := parseJsonChars s.data

/-! ## Roundtrip: parsing printed JSON recovers the value -/

theorem Json.ind (motive : Json → Prop) (hnull : motive .null)
    (hbool : ∀ b, motive (.bool b)) (hnum : ∀ m e, motive (.num m e))
    (hstr : ∀ s, motive (.str s))
    (harr : ∀ es, (∀ v ∈ es, motive v) → motive (.arr es))
    (hobj : ∀ fs, (∀ kv ∈ fs, motive kv.2) → motive (.obj fs)) : ∀ j, motive j
  | .null => hnull
  | .bool b => hbool b
  | .num m e => hnum m e
  | .str s => hstr s
  | .arr es => harr es (fun v hv =>
      Json.ind motive hnull hbool hnum hstr harr hobj v)
  | .obj fs => hobj fs (fun kv hkv =>
      Json.ind motive hnull hbool hnum hstr harr hobj kv.2)
termination_by j => sizeOf j
decreasing_by
  · have h1 : sizeOf v < sizeOf es := List.sizeOf_lt_of_mem hv
    have h2 : sizeOf (Json.arr es) = 1 + sizeOf es := by simp
    omega
  · have h1 : sizeOf kv < sizeOf fs := List.sizeOf_lt_of_mem hkv
    have h2 : sizeOf kv.2 < sizeOf kv := by
      obtain ⟨k, v⟩ := kv
      have h4 : sizeOf (k, v) = 1 + sizeOf k + sizeOf v := by simp
      have h5 : sizeOf (k, v).2 = sizeOf v := rfl
      omega
    have h3 : sizeOf (Json.obj fs) = 1 + sizeOf fs := by simp
    omega

/- Fuel cost of parsing a printed value. -/
mutual

def costV : Json → Nat
  | .null => 1
  | .bool _ => 1
  | .num _ _ => 1
  | .str s => s.data.length + 2
  | .arr es => 1 + costL es
  | .obj fs => 1 + costF fs

def costL : List Json → Nat
  | [] => 0
  | v :: vs => 1 + costV v + costL vs

def costF : List (String × Json) → Nat
  | [] => 0
  | (k, v) :: fs => 2 + k.data.length + costV v + costF fs

end

theorem isDigitChar_not_ws {c : Char} (h : isDigitChar c = true) : isWsChar c = false := by
  have h1 : c ≠ ' ' := isDigitChar_ne h (by decide)
  have h2 : c ≠ '\t' := isDigitChar_ne h (by decide)
  have h3 : c ≠ '\n' := isDigitChar_ne h (by decide)
  have h4 : c ≠ crChar := isDigitChar_ne h (by decide)
  simp [isWsChar, h1, h2, h3, h4]

/-- Every printed value starts with one of the value-start characters. -/
theorem renderV_head (ind : Nat) (j : Json) :
    ∃ c t, renderV ind j = c :: t ∧
      (c = 'n' ∨ c = 't' ∨ c = 'f' ∨ c = '-' ∨ isDigitChar c = true ∨
        c = dquote ∨ c = lbrack ∨ c = lbrace) := by
  cases j with
  | null => exact ⟨'n', ['u', 'l', 'l'], by simp [renderV], Or.inl rfl⟩
  | bool b =>
    cases b with
    | true => exact ⟨'t', ['r', 'u', 'e'], by simp [renderV], by tauto⟩
    | false => exact ⟨'f', ['a', 'l', 's', 'e'], by simp [renderV], by tauto⟩
  | num m e =>
    by_cases hm : m < 0
    · refine ⟨'-', renderNumCore m.natAbs e, ?_, by tauto⟩
      simp [renderV, renderNum, hm]
    · rcases renderNumCore_head m.natAbs e with ⟨c, t, hc, hdig⟩
      refine ⟨c, t, ?_, by tauto⟩
      simp [renderV, renderNum, hm, hc]
  | str s =>
    exact ⟨dquote, concatMap escChar s.data ++ [dquote],
      by simp [renderV, renderStr], by tauto⟩
  | arr es =>
    cases es with
    | nil => exact ⟨lbrack, [rbrack], by simp [renderV], by tauto⟩
    | cons v vs =>
      exact ⟨lbrack, '\n' :: (List.replicate (ind + 2) ' ' ++ (renderV (ind + 2) v
        ++ (renderElemsTail (ind + 2) vs ++ '\n' :: (List.replicate ind ' ' ++ [rbrack])))),
        by simp [renderV], by tauto⟩
  | obj fs =>
    cases fs with
    | nil => exact ⟨lbrace, [rbrace], by simp [renderV], by tauto⟩
    | cons kv fs =>
      obtain ⟨k, v⟩ := kv
      exact ⟨lbrace, '\n' :: (List.replicate (ind + 2) ' ' ++ (renderField (ind + 2) k v
        ++ (renderFieldsTail (ind + 2) fs ++ '\n' :: (List.replicate ind ' ' ++ [rbrace])))),
        by simp [renderV], by tauto⟩

/-- Printed values start with a character that is not whitespace and not a
closing bracket or brace. -/
theorem renderV_head_props (ind : Nat) (j : Json) :
    ∃ c t, renderV ind j = c :: t ∧ isWsChar c = false ∧ c ≠ rbrack ∧ c ≠ rbrace := by
  rcases renderV_head ind j with ⟨c, t, hc, hd⟩
  refine ⟨c, t, hc, ?_, ?_, ?_⟩
  · rcases hd with rfl | rfl | rfl | rfl | h | rfl | rfl | rfl
    · decide
    · decide
    · decide
    · decide
    · exact isDigitChar_not_ws h
    · decide
    · decide
    · decide
  · rcases hd with rfl | rfl | rfl | rfl | h | rfl | rfl | rfl
    · decide
    · decide
    · decide
    · decide
    · exact isDigitChar_ne h (by decide)
    · decide
    · decide
    · decide
  · rcases hd with rfl | rfl | rfl | rfl | h | rfl | rfl | rfl
    · decide
    · decide
    · decide
    · decide
    · exact isDigitChar_ne h (by decide)
    · decide
    · decide
    · decide

theorem skipWs_renderV (ind : Nat) (j : Json) (rest : List Char) :
    skipWs (renderV ind j ++ rest) = renderV ind j ++ rest := by
  rcases renderV_head_props ind j with ⟨c, t, hc, hws, _, _⟩
  rw [hc, List.cons_append]
  exact skipWs_not_ws hws _

theorem numStop_comma (x : List Char) : numStop (',' :: x) :=
  ⟨by decide, by decide, by decide, by decide⟩

theorem numStop_newline (x : List Char) : numStop ('\n' :: x) :=
  ⟨by decide, by decide, by decide, by decide⟩

/-- Rendered members of a non-empty array, without brackets or indent. -/
def renderElemsBody (ind : Nat) : List Json → List Char
  | [] => []
  | v :: vs => renderV ind v ++ renderElemsTail ind vs

/-- Rendered members of a non-empty object, without braces or indent. -/
def renderFieldsBody (ind : Nat) : List (String × Json) → List Char
  | [] => []
  | (k, v) :: fs => renderField ind k v ++ renderFieldsTail ind fs

theorem renderV_arr_cons (ind : Nat) (v : Json) (vs : List Json) :
    renderV ind (.arr (v :: vs))
      = lbrack :: '\n' :: (List.replicate (ind + 2) ' '
          ++ (renderElemsBody (ind + 2) (v :: vs)
            ++ '\n' :: (List.replicate ind ' ' ++ [rbrack]))) := by
  simp [renderV, renderElemsBody]

theorem renderV_obj_cons (ind : Nat) (k : String) (v : Json)
    (fs : List (String × Json)) :
    renderV ind (.obj ((k, v) :: fs))
      = lbrace :: '\n' :: (List.replicate (ind + 2) ' '
          ++ (renderFieldsBody (ind + 2) ((k, v) :: fs)
            ++ '\n' :: (List.replicate ind ' ' ++ [rbrace]))) := by
  simp [renderV, renderFieldsBody]

theorem parseVal_str_branch (f : Nat) (cs : List Char) :
    parseVal (f + 1) (dquote :: cs)
      = match parseStringBody f cs with
        | some (s, r) => some (.str ⟨s⟩, r)
        | none => none := rfl

theorem parseVal_arr_branch (f : Nat) (cs : List Char) :
    parseVal (f + 1) (lbrack :: cs)
      = match skipWs cs with
        | [] => none
        | d :: r =>
          if d = rbrack then some (.arr [], r)
          else
            match parseElems f (d :: r) with
            | some (vs, r2) => some (.arr vs, r2)
            | none => none := rfl

theorem parseVal_obj_branch (f : Nat) (cs : List Char) :
    parseVal (f + 1) (lbrace :: cs)
      = match skipWs cs with
        | [] => none
        | d :: r =>
          if d = rbrace then some (.obj [], r)
          else
            match parseFields f (d :: r) with
            | some (fs, r2) => some (.obj fs, r2)
            | none => none := rfl

theorem parseVal_num_branch {c : Char} (f : Nat) (cs : List Char)
    (hc : c = '-' ∨ isDigitChar c = true) :
    parseVal (f + 1) (c :: cs)
      = match parseNumber (c :: cs) with
        | some (m, e, r) => some (.num m e, r)
        | none => none := by
  have h1 : c ≠ lbrace := by
    rcases hc with rfl | h
    · decide
    · exact isDigitChar_ne h (by decide)
  have h2 : c ≠ lbrack := by
    rcases hc with rfl | h
    · decide
    · exact isDigitChar_ne h (by decide)
  have h3 : c ≠ dquote := by
    rcases hc with rfl | h
    · decide
    · exact isDigitChar_ne h (by decide)
  have h4 : c ≠ 't' := by
    rcases hc with rfl | h
    · decide
    · exact isDigitChar_ne h (by decide)
  have h5 : c ≠ 'f' := by
    rcases hc with rfl | h
    · decide
    · exact isDigitChar_ne h (by decide)
  have h6 : c ≠ 'n' := by
    rcases hc with rfl | h
    · decide
    · exact isDigitChar_ne h (by decide)
  have h7 : (c = '-' || isDigitChar c) = true := by
    rcases hc with rfl | h
    · simp
    · simp [h]
  simp only [parseVal]
  rw [if_neg h1, if_neg h2, if_neg h3, if_neg h4, if_neg h5, if_neg h6, if_pos h7]

theorem parseElems_step {f : Nat} {cs : List Char} {v : Json} {r : List Char}
    (h : parseVal f cs = some (v, r)) :
    parseElems (f + 1) cs
      = match skipWs r with
        | [] => none
        | c :: r1 =>
          if c = ',' then
            match parseElems f (skipWs r1) with
            | none => none
            | some (vs, r2) => some (v :: vs, r2)
          else if c = rbrack then some ([v], r1)
          else none := by
  simp only [parseElems, h]

theorem skipWs_elemsBody (ind2 : Nat) (w : Json) (ws : List Json) (x : List Char) :
    skipWs (renderElemsBody ind2 (w :: ws) ++ x)
      = renderElemsBody ind2 (w :: ws) ++ x := by
  have hb : renderElemsBody ind2 (w :: ws) ++ x
      = renderV ind2 w ++ (renderElemsTail ind2 ws ++ x) := by
    simp [renderElemsBody]
  rw [hb, skipWs_renderV]

theorem string_eta (k : String) : (⟨k.data⟩ : String) = k := by
  cases k
  rfl

theorem parseFields_step {f : Nat} {cs1 : List Char} {k : List Char} {r : List Char}
    (h : parseStringBody f cs1 = some (k, r)) :
    parseFields (f + 1) (dquote :: cs1)
      = match skipWs r with
        | [] => none
        | d :: r1 =>
          if d = ':' then
            match parseVal f (skipWs r1) with
            | none => none
            | some (v, r2) =>
              match skipWs r2 with
              | [] => none
              | e :: r3 =>
                if e = ',' then
                  match parseFields f (skipWs r3) with
                  | none => none
                  | some (fs, r4) => some ((⟨k⟩, v) :: fs, r4)
                else if e = rbrace then some ([(⟨k⟩, v)], r3)
                else none
          else none := by
  simp only [parseFields, h]
  rw [if_pos trivial]

/-- Parsing the printed members of a non-empty array consumes them and the
closing bracket, provided every member parses back from its print. -/
theorem parseElems_render : ∀ (es : List Json),
    (∀ v ∈ es, ∀ f ind rest, costV v ≤ f → numStop rest →
      parseVal f (renderV ind v ++ rest) = some (v, rest)) →
    es ≠ [] →
    ∀ f ind2 ind3 rest, costL es ≤ f →
      parseElems f (renderElemsBody ind2 es
          ++ ('\n' :: (List.replicate ind3 ' ' ++ (rbrack :: rest))))
        = some (es, rest) := by
  intro es
  induction es with
  | nil => exact fun _ hne => absurd rfl hne
  | cons v vs ih =>
    intro hP _ f ind2 ind3 rest hf
    have hcost : costL (v :: vs) = 1 + costV v + costL vs := by simp [costL]
    cases f with
    | zero => omega
    | succ g =>
      have hgv : costV v ≤ g := by omega
      have hgvs : costL vs ≤ g := by omega
      cases vs with
      | nil =>
        have hbody : renderElemsBody ind2 [v]
            ++ ('\n' :: (List.replicate ind3 ' ' ++ (rbrack :: rest)))
            = renderV ind2 v ++ ('\n' :: (List.replicate ind3 ' ' ++ (rbrack :: rest))) := by
          simp [renderElemsBody, renderElemsTail]
        rw [hbody]
        have hv1 := hP v (by simp) g ind2
          ('\n' :: (List.replicate ind3 ' ' ++ (rbrack :: rest))) hgv (numStop_newline _)
        rw [parseElems_step hv1]
        have hskip : skipWs ('\n' :: (List.replicate ind3 ' ' ++ (rbrack :: rest)))
            = rbrack :: rest := by
          rw [skipWs_newline, skipWs_replicate]
          exact skipWs_not_ws (by decide) rest
        rw [hskip]
        simp [(by decide : ¬ (rbrack = ','))]
      | cons w ws =>
        have hbody : renderElemsBody ind2 (v :: w :: ws)
            ++ ('\n' :: (List.replicate ind3 ' ' ++ (rbrack :: rest)))
            = renderV ind2 v ++ (',' :: '\n' :: (List.replicate ind2 ' '
              ++ (renderElemsBody ind2 (w :: ws)
                ++ ('\n' :: (List.replicate ind3 ' ' ++ (rbrack :: rest)))))) := by
          simp [renderElemsBody, renderElemsTail]
        rw [hbody]
        have hv1 := hP v (by simp) g ind2
          (',' :: '\n' :: (List.replicate ind2 ' '
            ++ (renderElemsBody ind2 (w :: ws)
              ++ ('\n' :: (List.replicate ind3 ' ' ++ (rbrack :: rest))))))
          hgv (numStop_comma _)
        rw [parseElems_step hv1]
        have hskip1 : skipWs (',' :: '\n' :: (List.replicate ind2 ' '
            ++ (renderElemsBody ind2 (w :: ws)
              ++ ('\n' :: (List.replicate ind3 ' ' ++ (rbrack :: rest))))))
            = ',' :: '\n' :: (List.replicate ind2 ' '
              ++ (renderElemsBody ind2 (w :: ws)
                ++ ('\n' :: (List.replicate ind3 ' ' ++ (rbrack :: rest))))) :=
          skipWs_not_ws (by decide) _
        rw [hskip1]
        have hskip2 : skipWs ('\n' :: (List.replicate ind2 ' '
            ++ (renderElemsBody ind2 (w :: ws)
              ++ ('\n' :: (List.replicate ind3 ' ' ++ (rbrack :: rest))))))
            = renderElemsBody ind2 (w :: ws)
              ++ ('\n' :: (List.replicate ind3 ' ' ++ (rbrack :: rest))) := by
          rw [skipWs_newline, skipWs_replicate]
          exact skipWs_elemsBody ind2 w ws _
        have hih := ih (fun v2 hv2 => hP v2 (List.mem_cons_of_mem _ hv2))
          (List.cons_ne_nil w ws) g ind2 ind3 rest hgvs
        simp [hskip2, hih]

/-- Parsing the printed members of a non-empty object consumes them and the
closing brace, provided every member value parses back from its print. -/
theorem parseFields_render : ∀ (fs : List (String × Json)),
    (∀ kv ∈ fs, ∀ f ind rest, costV kv.2 ≤ f → numStop rest →
      parseVal f (renderV ind kv.2 ++ rest) = some (kv.2, rest)) →
    fs ≠ [] →
    ∀ f ind2 ind3 rest, costF fs ≤ f →
      parseFields f (renderFieldsBody ind2 fs
          ++ ('\n' :: (List.replicate ind3 ' ' ++ (rbrace :: rest))))
        = some (fs, rest) := by
  intro fs
  induction fs with
  | nil => exact fun _ hne => absurd rfl hne
  | cons kv fs ih =>
    obtain ⟨k, v⟩ := kv
    intro hP _ f ind2 ind3 rest hf
    have hcost : costF ((k, v) :: fs) = 2 + k.data.length + costV v + costF fs := by
      simp [costF]
    cases f with
    | zero => omega
    | succ g =>
      have hgk : k.data.length < g := by omega
      have hgv : costV v ≤ g := by omega
      have hgfs : costF fs ≤ g := by omega
      -- the printed member list starts with the quoted key
      have hbody : renderFieldsBody ind2 ((k, v) :: fs)
          ++ ('\n' :: (List.replicate ind3 ' ' ++ (rbrace :: rest)))
          = dquote :: (concatMap escChar k.data
            ++ (dquote :: (':' :: ' ' :: (renderV ind2 v
              ++ (renderFieldsTail ind2 fs
                ++ ('\n' :: (List.replicate ind3 ' ' ++ (rbrace :: rest)))))))) := by
        simp [renderFieldsBody, renderField, renderStr]
      rw [hbody]
      have hpk := parseStringBody_escape k.data g (by omega)
        (':' :: ' ' :: (renderV ind2 v
          ++ (renderFieldsTail ind2 fs
            ++ ('\n' :: (List.replicate ind3 ' ' ++ (rbrace :: rest))))))
      rw [parseFields_step hpk]
      have hskip1 : skipWs (':' :: ' ' :: (renderV ind2 v
          ++ (renderFieldsTail ind2 fs
            ++ ('\n' :: (List.replicate ind3 ' ' ++ (rbrace :: rest))))))
          = ':' :: ' ' :: (renderV ind2 v
            ++ (renderFieldsTail ind2 fs
              ++ ('\n' :: (List.replicate ind3 ' ' ++ (rbrace :: rest))))) :=
        skipWs_not_ws (by decide) _
      have hskip2 : skipWs (' ' :: (renderV ind2 v
          ++ (renderFieldsTail ind2 fs
            ++ ('\n' :: (List.replicate ind3 ' ' ++ (rbrace :: rest))))))
          = renderV ind2 v
            ++ (renderFieldsTail ind2 fs
              ++ ('\n' :: (List.replicate ind3 ' ' ++ (rbrace :: rest)))) := by
        rw [skipWs_space]
        exact skipWs_renderV _ _ _
      simp only [hskip1, hskip2]
      cases fs with
      | nil =>
        have htail : renderFieldsTail ind2 ([] : List (String × Json)) = [] := by
          simp [renderFieldsTail]
        rw [htail, List.nil_append]
        have hv1 := hP (k, v) (by simp) g ind2
          ('\n' :: (List.replicate ind3 ' ' ++ (rbrace :: rest))) hgv (numStop_newline _)
        rw [hv1]
        have hskip3 : skipWs ('\n' :: (List.replicate ind3 ' ' ++ (rbrace :: rest)))
            = rbrace :: rest := by
          rw [skipWs_newline, skipWs_replicate]
          exact skipWs_not_ws (by decide) rest
        simp [hskip3, (by decide : ¬ (rbrace = ',')), string_eta]
      | cons kv2 fs2 =>
        obtain ⟨k2, v2⟩ := kv2
        have htail : renderFieldsTail ind2 ((k2, v2) :: fs2)
            ++ ('\n' :: (List.replicate ind3 ' ' ++ (rbrace :: rest)))
            = ',' :: '\n' :: (List.replicate ind2 ' '
              ++ (renderFieldsBody ind2 ((k2, v2) :: fs2)
                ++ ('\n' :: (List.replicate ind3 ' ' ++ (rbrace :: rest))))) := by
          simp [renderFieldsTail, renderFieldsBody, renderField]
        rw [htail]
        have hv1 := hP (k, v) (by simp) g ind2
          (',' :: '\n' :: (List.replicate ind2 ' '
            ++ (renderFieldsBody ind2 ((k2, v2) :: fs2)
              ++ ('\n' :: (List.replicate ind3 ' ' ++ (rbrace :: rest))))))
          hgv (numStop_comma _)
        rw [hv1]
        have hskip3 : skipWs (',' :: '\n' :: (List.replicate ind2 ' '
            ++ (renderFieldsBody ind2 ((k2, v2) :: fs2)
              ++ ('\n' :: (List.replicate ind3 ' ' ++ (rbrace :: rest))))))
            = ',' :: '\n' :: (List.replicate ind2 ' '
              ++ (renderFieldsBody ind2 ((k2, v2) :: fs2)
                ++ ('\n' :: (List.replicate ind3 ' ' ++ (rbrace :: rest))))) :=
          skipWs_not_ws (by decide) _
        have hfieldhead : ∃ t, renderFieldsBody ind2 ((k2, v2) :: fs2)
            = dquote :: t := by
          simp [renderFieldsBody, renderField, renderStr]
        have hskip4 : skipWs ('\n' :: (List.replicate ind2 ' '
            ++ (renderFieldsBody ind2 ((k2, v2) :: fs2)
              ++ ('\n' :: (List.replicate ind3 ' ' ++ (rbrace :: rest))))))
            = renderFieldsBody ind2 ((k2, v2) :: fs2)
              ++ ('\n' :: (List.replicate ind3 ' ' ++ (rbrace :: rest))) := by
          rw [skipWs_newline, skipWs_replicate]
          rcases hfieldhead with ⟨t, ht⟩
          rw [ht, List.cons_append]
          exact skipWs_not_ws (by decide) _
        have hih := ih (fun kv2 hkv2 => hP kv2 (List.mem_cons_of_mem _ hkv2))
          (List.cons_ne_nil _ _) g ind2 ind3 rest hgfs
        simp [hskip3, hskip4, hih, string_eta]

theorem renderFieldsBody_head (ind : Nat) (k : String) (v : Json)
    (fs : List (String × Json)) :
    ∃ t, renderFieldsBody ind ((k, v) :: fs) = dquote :: t := by
  simp [renderFieldsBody, renderField, renderStr]

/-- Parsing a printed JSON value recovers it exactly. -/
theorem parseVal_renderV : ∀ (j : Json), ∀ (f ind : Nat) (rest : List Char),
    costV j ≤ f → numStop rest →
    parseVal f (renderV ind j ++ rest) = some (j, rest) := by
  intro j
  induction j using Json.ind with
  | hnull =>
    intro f ind rest hf _
    have hc : costV Json.null = 1 := by simp [costV]
    cases f with
    | zero => omega
    | succ g =>
      rw [show renderV ind Json.null = ['n', 'u', 'l', 'l'] from by simp [renderV]]
      rfl
  | hbool b =>
    intro f ind rest hf _
    have hc : costV (Json.bool b) = 1 := by simp [costV]
    cases f with
    | zero => omega
    | succ g =>
      cases b with
      | true =>
        rw [show renderV ind (Json.bool true) = ['t', 'r', 'u', 'e'] from by simp [renderV]]
        rfl
      | false =>
        rw [show renderV ind (Json.bool false) = ['f', 'a', 'l', 's', 'e'] from by
          simp [renderV]]
        rfl
  | hnum m e =>
    intro f ind rest hf hstop
    have hc : costV (Json.num m e) = 1 := by simp [costV]
    cases f with
    | zero => omega
    | succ g =>
      rw [show renderV ind (Json.num m e) = renderNum m e from by simp [renderV]]
      by_cases hm : m < 0
      · have hrn : renderNum m e = '-' :: renderNumCore m.natAbs e := by
          simp [renderNum, hm]
        rw [hrn, List.cons_append, parseVal_num_branch g _ (Or.inl rfl),
          show '-' :: (renderNumCore m.natAbs e ++ rest) = renderNum m e ++ rest from by
            rw [hrn]; simp,
          parseNumber_renderNum m e rest hstop]
      · rcases renderNumCore_head m.natAbs e with ⟨c, t, hcc, hdig⟩
        have hrn : renderNum m e = renderNumCore m.natAbs e := by
          simp [renderNum, hm]
        rw [hrn, hcc, List.cons_append, parseVal_num_branch g _ (Or.inr hdig),
          show c :: (t ++ rest) = renderNum m e ++ rest from by rw [hrn, hcc]; simp,
          parseNumber_renderNum m e rest hstop]
  | hstr s =>
    intro f ind rest hf _
    have hc : costV (Json.str s) = s.data.length + 2 := by simp [costV]
    cases f with
    | zero => omega
    | succ g =>
      have hlen : s.data.length < g := by omega
      have hrs : renderV ind (Json.str s) ++ rest
          = dquote :: (concatMap escChar s.data ++ (dquote :: rest)) := by
        simp [renderV, renderStr]
      rw [hrs, parseVal_str_branch, parseStringBody_escape s.data g hlen rest]
  | harr es hes =>
    intro f ind rest hf _
    cases es with
    | nil =>
      have hc : costV (Json.arr []) = 1 := by simp [costV, costL]
      cases f with
      | zero => omega
      | succ g =>
        rw [show renderV ind (Json.arr []) = [lbrack, rbrack] from by simp [renderV]]
        rfl
    | cons v vs =>
      have hc : costV (Json.arr (v :: vs)) = 1 + costL (v :: vs) := by simp [costV]
      cases f with
      | zero => omega
      | succ g =>
        have hgl : costL (v :: vs) ≤ g := by omega
        rw [renderV_arr_cons]
        have harr1 : (lbrack :: '\n' :: (List.replicate (ind + 2) ' '
            ++ (renderElemsBody (ind + 2) (v :: vs)
              ++ '\n' :: (List.replicate ind ' ' ++ [rbrack])))) ++ rest
            = lbrack :: ('\n' :: (List.replicate (ind + 2) ' '
              ++ (renderElemsBody (ind + 2) (v :: vs)
                ++ ('\n' :: (List.replicate ind ' ' ++ (rbrack :: rest)))))) := by
          simp
        rw [harr1, parseVal_arr_branch]
        have hskip : skipWs ('\n' :: (List.replicate (ind + 2) ' '
            ++ (renderElemsBody (ind + 2) (v :: vs)
              ++ ('\n' :: (List.replicate ind ' ' ++ (rbrack :: rest))))))
            = renderElemsBody (ind + 2) (v :: vs)
              ++ ('\n' :: (List.replicate ind ' ' ++ (rbrack :: rest))) := by
          rw [skipWs_newline, skipWs_replicate]
          exact skipWs_elemsBody _ _ _ _
        rcases renderV_head_props (ind + 2) v with ⟨c, t, hcv, _, hnb, _⟩
        have hbodyc : renderElemsBody (ind + 2) (v :: vs)
            ++ ('\n' :: (List.replicate ind ' ' ++ (rbrack :: rest)))
            = c :: (t ++ (renderElemsTail (ind + 2) vs
              ++ ('\n' :: (List.replicate ind ' ' ++ (rbrack :: rest))))) := by
          simp [renderElemsBody, hcv]
        have helems := parseElems_render (v :: vs) hes (List.cons_ne_nil v vs)
          g (ind + 2) ind rest hgl
        rw [hbodyc] at helems
        rw [hskip, hbodyc]
        simp [hnb, helems]
  | hobj fs hfs =>
    intro f ind rest hf _
    cases fs with
    | nil =>
      have hc : costV (Json.obj []) = 1 := by simp [costV, costF]
      cases f with
      | zero => omega
      | succ g =>
        rw [show renderV ind (Json.obj []) = [lbrace, rbrace] from by simp [renderV]]
        rfl
    | cons kv fs2 =>
      obtain ⟨k, v⟩ := kv
      have hc : costV (Json.obj ((k, v) :: fs2)) = 1 + costF ((k, v) :: fs2) := by
        simp [costV]
      cases f with
      | zero => omega
      | succ g =>
        have hgl : costF ((k, v) :: fs2) ≤ g := by omega
        rw [renderV_obj_cons]
        have hobj1 : (lbrace :: '\n' :: (List.replicate (ind + 2) ' '
            ++ (renderFieldsBody (ind + 2) ((k, v) :: fs2)
              ++ '\n' :: (List.replicate ind ' ' ++ [rbrace])))) ++ rest
            = lbrace :: ('\n' :: (List.replicate (ind + 2) ' '
              ++ (renderFieldsBody (ind + 2) ((k, v) :: fs2)
                ++ ('\n' :: (List.replicate ind ' ' ++ (rbrace :: rest)))))) := by
          simp
        rw [hobj1, parseVal_obj_branch]
        rcases renderFieldsBody_head (ind + 2) k v fs2 with ⟨t, hfb⟩
        have hskip : skipWs ('\n' :: (List.replicate (ind + 2) ' '
            ++ (renderFieldsBody (ind + 2) ((k, v) :: fs2)
              ++ ('\n' :: (List.replicate ind ' ' ++ (rbrace :: rest))))))
            = renderFieldsBody (ind + 2) ((k, v) :: fs2)
              ++ ('\n' :: (List.replicate ind ' ' ++ (rbrace :: rest))) := by
          rw [skipWs_newline, skipWs_replicate, hfb, List.cons_append]
          exact skipWs_not_ws (by decide) _
        have hbodyc : renderFieldsBody (ind + 2) ((k, v) :: fs2)
            ++ ('\n' :: (List.replicate ind ' ' ++ (rbrace :: rest)))
            = dquote :: (t ++ ('\n' :: (List.replicate ind ' ' ++ (rbrace :: rest)))) := by
          rw [hfb]
          simp
        have hfields := parseFields_render ((k, v) :: fs2) hfs
          (List.cons_ne_nil _ _) g (ind + 2) ind rest hgl
        rw [hbodyc] at hfields
        rw [hskip, hbodyc]
        simp [(by decide : ¬ (dquote = rbrace)), hfields]

theorem escChar_len (c : Char) : 1 ≤ (escChar c).length := by
  unfold escChar
  split_ifs <;> simp

theorem concatMap_escChar_len (l : List Char) :
    l.length ≤ (concatMap escChar l).length := by
  induction l with
  | nil => simp [concatMap]
  | cons c cs ih =>
    have h := escChar_len c
    simp only [concatMap, List.length_append, List.length_cons]
    omega

theorem renderNum_len (m e : Int) : 1 ≤ (renderNum m e).length := by
  rcases renderNumCore_head m.natAbs e with ⟨c, t, hc, _⟩
  rw [renderNum, hc]
  by_cases hm : m < 0 <;> simp [hm]

theorem renderStr_len (s : String) : s.data.length + 2 ≤ (renderStr s).length := by
  have h := concatMap_escChar_len s.data
  have hlen : (renderStr s).length = (concatMap escChar s.data).length + 2 := by
    simp only [renderStr, List.length_cons, List.length_append, List.length_nil]
  omega

/-- The parse cost of a value is bounded by the length of its print. -/
theorem costV_le_renderV : ∀ (j : Json), ∀ (ind : Nat),
    costV j ≤ (renderV ind j).length := by
  intro j
  induction j using Json.ind with
  | hnull => intro ind; simp [costV, renderV]
  | hbool b => intro ind; cases b <;> simp [costV, renderV]
  | hnum m e =>
    intro ind
    have h := renderNum_len m e
    have hr : renderV ind (Json.num m e) = renderNum m e := by simp [renderV]
    have hcv : costV (Json.num m e) = 1 := by simp [costV]
    rw [hcv, hr]
    exact h
  | hstr s =>
    intro ind
    have h := renderStr_len s
    have hr : renderV ind (Json.str s) = renderStr s := by simp [renderV]
    have hcv : costV (Json.str s) = s.data.length + 2 := by simp [costV]
    rw [hcv, hr]
    exact h
  | harr es hes =>
    intro ind
    have htail : ∀ ws, (∀ w ∈ ws, ∀ ind2, costV w ≤ (renderV ind2 w).length) →
        ∀ ind2, costL ws ≤ (renderElemsTail ind2 ws).length := by
      intro ws
      induction ws with
      | nil => intro _ _; simp [costL, renderElemsTail]
      | cons w ws2 ih2 =>
        intro hw ind2
        have h1 := hw w (by simp) ind2
        have h2 := ih2 (fun x hx => hw x (by simp [hx])) ind2
        have hcl : costL (w :: ws2) = 1 + costV w + costL ws2 := by simp [costL]
        have hrt : (renderElemsTail ind2 (w :: ws2)).length
            = 2 + ind2 + (renderV ind2 w).length + (renderElemsTail ind2 ws2).length := by
          simp [renderElemsTail]
          omega
        omega
    cases es with
    | nil => simp [costV, costL, renderV]
    | cons v vs =>
      have h1 := hes v (by simp) (ind + 2)
      have h2 := htail vs (fun w hw => hes w (by simp [hw])) (ind + 2)
      have hcv : costV (Json.arr (v :: vs)) = 1 + (1 + costV v + costL vs) := by
        simp [costV, costL]
      have hrl : (renderV ind (Json.arr (v :: vs))).length
          = 2 + (ind + 2) + (renderV (ind + 2) v).length
            + (renderElemsTail (ind + 2) vs).length + 1 + ind + 1 := by
        rw [renderV_arr_cons]
        simp [renderElemsBody]
        omega
      omega
  | hobj fs hfs =>
    intro ind
    have hfield : ∀ (k2 : String) (v2 : Json) (ind2 : Nat),
        costV v2 ≤ (renderV ind2 v2).length →
        k2.data.length + 2 + costV v2 + 2 ≤ (renderField ind2 k2 v2).length := by
      intro k2 v2 ind2 hv2
      have hs := renderStr_len k2
      have hr : (renderField ind2 k2 v2).length
          = (renderStr k2).length + 2 + (renderV ind2 v2).length := by
        simp [renderField]
        omega
      omega
    have htail : ∀ ws, (∀ w ∈ ws, ∀ ind2, costV w.2 ≤ (renderV ind2 w.2).length) →
        ∀ ind2, costF ws ≤ (renderFieldsTail ind2 ws).length := by
      intro ws
      induction ws with
      | nil => intro _ _; simp [costF, renderFieldsTail]
      | cons w ws2 ih2 =>
        obtain ⟨k2, v2⟩ := w
        intro hw ind2
        have h1 := hfield k2 v2 ind2 (hw (k2, v2) (by simp) ind2)
        have h2 := ih2 (fun x hx => hw x (by simp [hx])) ind2
        have hcf : costF ((k2, v2) :: ws2)
            = 2 + k2.data.length + costV v2 + costF ws2 := by simp [costF]
        have hrt : (renderFieldsTail ind2 ((k2, v2) :: ws2)).length
            = 2 + ind2 + (renderField ind2 k2 v2).length
              + (renderFieldsTail ind2 ws2).length := by
          simp [renderFieldsTail]
          omega
        omega
    cases fs with
    | nil => simp [costV, costF, renderV]
    | cons kv fs2 =>
      obtain ⟨k, v⟩ := kv
      have h1 := hfield k v (ind + 2) (hfs (k, v) (by simp) (ind + 2))
      have h2 := htail fs2 (fun w hw => hfs w (by simp [hw])) (ind + 2)
      have hcv : costV (Json.obj ((k, v) :: fs2))
          = 1 + (2 + k.data.length + costV v + costF fs2) := by
        simp [costV, costF]
      have hrl : (renderV ind (Json.obj ((k, v) :: fs2))).length
          = 2 + (ind + 2) + (renderField (ind + 2) k v).length
            + (renderFieldsTail (ind + 2) fs2).length + 1 + ind + 1 := by
        rw [renderV_obj_cons]
        simp [renderFieldsBody]
        omega
      omega

/-- Parsing the pretty-printed form of any JSON value recovers the value:
`JSON.parse` is a left inverse of `JSON.stringify(v, null, 2)`. -/
theorem parseJson_renderJson (j : Json) : parseJson (renderJson j) = some j := by
  have hdata : (renderJson j).data = renderV 0 j := rfl
  have hskip : skipWs (renderV 0 j) = renderV 0 j := by
    have h := skipWs_renderV 0 j []
    simpa using h
  have hparse := parseVal_renderV j ((renderV 0 j).length + 1) 0 []
    (by have := costV_le_renderV j 0; omega) trivial
  rw [List.append_nil] at hparse
  simp [parseJson, parseJsonChars, hdata, hskip, hparse, skipWs]

/-! ## Greedy brace-regex extraction (src/evaluator.ts)

`evaluationText.match` against the greedy regex that matches from a left
brace through everything to a right brace: the leftmost-longest match runs
from the first left brace that has some right brace after it through the
last right brace of the input. -/

/-- Longest prefix of the input that ends with a right brace. -/
def takeThroughLastClose : List Char → Option (List Char)
  | [] => none
  | c :: rest =>
    match takeThroughLastClose rest with
    | some t => some (c :: t)
    | none => if c = rbrace then some [c] else none

/-- Leftmost-longest match of the greedy brace regex. -/
def jsonRegexMatch : List Char → Option (List Char)
  | [] => none
  | c :: rest =>
    if c = lbrace then
      match takeThroughLastClose rest with
      | some t => some (lbrace :: t)
      | none => jsonRegexMatch rest
    else jsonRegexMatch rest

theorem ttlc_ends_close (xs : List Char) :
    takeThroughLastClose (xs ++ [rbrace]) = some (xs ++ [rbrace]) := by
  induction xs with
  | nil => rfl
  | cons x xs ih => simp [takeThroughLastClose, ih]

theorem ttlc_no_close {l : List Char} (h : rbrace ∉ l) :
    takeThroughLastClose l = none := by
  induction l with
  | nil => rfl
  | cons c cs ih =>
    have hc : c ≠ rbrace := fun hx => h (hx ▸ List.mem_cons_self c cs)
    have hcs : rbrace ∉ cs := fun hx => h (List.mem_cons_of_mem c hx)
    simp [takeThroughLastClose, ih hcs, hc]

theorem ttlc_append_no_close {post : List Char} (h : rbrace ∉ post) (xs : List Char) :
    takeThroughLastClose (xs ++ post) = takeThroughLastClose xs := by
  induction xs with
  | nil => simp [takeThroughLastClose, ttlc_no_close h]
  | cons x xs ih => simp [takeThroughLastClose, ih]

theorem ttlc_isSome_of_mem {l : List Char} (h : rbrace ∈ l) :
    ∃ t, takeThroughLastClose l = some t := by
  induction l with
  | nil => exact absurd h (List.not_mem_nil _)
  | cons c cs ih =>
    by_cases hcs : rbrace ∈ cs
    · rcases ih hcs with ⟨t, ht⟩
      exact ⟨c :: t, by simp [takeThroughLastClose, ht]⟩
    · have hc : c = rbrace := by
        rcases List.mem_cons.mp h with h1 | h2
        · exact h1.symm
        · exact absurd h2 hcs
      subst hc
      cases hrec : takeThroughLastClose cs with
      | some t => exact ⟨rbrace :: t, by simp [takeThroughLastClose, hrec]⟩
      | none => exact ⟨[rbrace], by simp [takeThroughLastClose, hrec]⟩

theorem ttlc_decomp {l t : List Char} (h : takeThroughLastClose l = some t) :
    ∃ u c2, l = t ++ c2 ∧ t = u ++ [rbrace] := by
  induction l generalizing t with
  | nil => exact absurd h (by simp [takeThroughLastClose])
  | cons c cs ih =>
    rw [takeThroughLastClose] at h
    cases hrec : takeThroughLastClose cs with
    | some t2 =>
      rw [hrec] at h
      rcases ih hrec with ⟨u, c2, hcs, ht2⟩
      cases h
      exact ⟨c :: u, c2, by simp [hcs], by simp [ht2]⟩
    | none =>
      rw [hrec] at h
      by_cases hc : c = rbrace
      · subst hc
        rw [if_pos rfl] at h
        cases h
        exact ⟨[], cs, by simp, by simp⟩
      · rw [if_neg hc] at h
        exact absurd h (by simp)

theorem jrm_skip {pre : List Char} (h : lbrace ∉ pre) (x : List Char) :
    jsonRegexMatch (pre ++ x) = jsonRegexMatch x := by
  induction pre with
  | nil => rfl
  | cons c cs ih =>
    have hc : c ≠ lbrace := fun hx => h (hx ▸ List.mem_cons_self c cs)
    have hcs : lbrace ∉ cs := fun hx => h (List.mem_cons_of_mem c hx)
    simp [jsonRegexMatch, hc, ih hcs]

/-- A successful greedy match exhibits a brace pair in the input. -/
theorem jrm_some_decomp {l m : List Char} (h : jsonRegexMatch l = some m) :
    ∃ a b c2, l = a ++ lbrace :: (b ++ rbrace :: c2) := by
  induction l generalizing m with
  | nil => exact absurd h (by simp [jsonRegexMatch])
  | cons c cs ih =>
    rw [jsonRegexMatch] at h
    by_cases hc : c = lbrace
    · subst hc
      rw [if_pos rfl] at h
      cases hrec : takeThroughLastClose cs with
      | some t =>
        rcases ttlc_decomp hrec with ⟨u, c2, hcs, ht⟩
        refine ⟨[], u, c2, ?_⟩
        rw [List.nil_append, hcs, ht]
        simp
      | none =>
        rw [hrec] at h
        rcases ih h with ⟨a, b, c2, hcs⟩
        exact ⟨lbrace :: a, b, c2, by rw [hcs]; rfl⟩
    · rw [if_neg hc] at h
      rcases ih h with ⟨a, b, c2, hcs⟩
      exact ⟨c :: a, b, c2, by rw [hcs]; rfl⟩

/-- A brace pair in the input guarantees a greedy match. -/
theorem jrm_isSome_of_pair (a b c2 : List Char) :
    ∃ m, jsonRegexMatch (a ++ lbrace :: (b ++ rbrace :: c2)) = some m := by
  induction a with
  | nil =>
    rw [List.nil_append, jsonRegexMatch, if_pos rfl]
    rcases ttlc_isSome_of_mem (l := b ++ rbrace :: c2) (by simp) with ⟨t, ht⟩
    exact ⟨lbrace :: t, by rw [ht]⟩
  | cons c cs ih =>
    rcases ih with ⟨m, hm⟩
    by_cases hc : c = lbrace
    · subst hc
      rw [List.cons_append, jsonRegexMatch, if_pos rfl]
      cases hrec : takeThroughLastClose (cs ++ lbrace :: (b ++ rbrace :: c2)) with
      | some t => exact ⟨lbrace :: t, rfl⟩
      | none => exact ⟨m, hm⟩
    · exact ⟨m, by rw [List.cons_append, jsonRegexMatch, if_neg hc]; exact hm⟩

/-- When the surrounding text has no left brace before and no right brace
after, the greedy match is exactly the embedded braced substring. -/
theorem jrm_exact {pre post mid : List Char}
    (hpre : lbrace ∉ pre) (hpost : rbrace ∉ post) :
    jsonRegexMatch (pre ++ ((lbrace :: (mid ++ [rbrace])) ++ post))
      = some (lbrace :: (mid ++ [rbrace])) := by
  rw [jrm_skip hpre]
  rw [List.cons_append, jsonRegexMatch, if_pos rfl]
  rw [List.append_assoc] at *
  rw [show mid ++ ([rbrace] ++ post) = (mid ++ [rbrace]) ++ post from by simp]
  rw [ttlc_append_no_close hpost, ttlc_ends_close]

/-! ## Data model (src/types.ts) -/

/-- A retrieved chunk as shaped by the query flow: page content plus the
metadata record.  The declared optional `similarity_score` is never
populated by the reference index, so no constructed value carries it. -/
structure RetrievedChunk where
  content : String
  metadata : List (String × Json)

/-- Query response: question, generated answer, retrieved chunks. -/
structure QueryResponse where
  user_question : String
  system_answer : String
  chunks_related : List RetrievedChunk

/-- Evaluation breakdown scores; fields are raw JSON values and may be
absent (`none` models the JavaScript `undefined` of a missing property,
since the source performs no schema validation). -/
structure EvaluationBreakdown where
  chunk_relevance : Option Json
  answer_accuracy : Option Json
  completeness : Option Json

/-- Evaluation result as built by `evaluateResponse`. -/
structure EvaluationResult where
  score : Option Json
  reason : Option Json
  breakdown : EvaluationBreakdown

/-- Property lookup on a parsed object; with duplicate keys the last wins,
as in a JavaScript object built by `JSON.parse`. -/
def lookupField : List (String × Json) → String → Option Json
  | [], _ => none
  | (k, v) :: fs, key =>
    match lookupField fs key with
    | some v2 => some v2
    | none => if k = key then some v else none

/-- JavaScript property access on a parsed JSON value: a field of an
object, `undefined` (`none`) on any other non-null value. -/
def objLookup (j : Json) (key : String) : Option Json :=
  match j with
  | .obj fs => lookupField fs key
  | _ => none

/-- The parse-and-extract step of `evaluateResponse` (src/evaluator.ts):
match the raw completion text against the greedy brace regex, `JSON.parse`
the match, read the result fields off the parsed value.  The provider call
producing the completion text is an external collaborator, so the text is
taken as input.  Thrown `Error` / `SyntaxError` / `TypeError` values are
modelled as `Except.error` messages. -/
def evaluateResponseText (evaluationText : String) : Except String EvaluationResult :=
  match jsonRegexMatch evaluationText.data with
  | none => .error "Failed to extract JSON from evaluation response"
  | some matched =>
    match parseJsonChars matched with
    | none => .error "SyntaxError: Unexpected token in JSON"
    | some Json.null => .error "TypeError: Cannot read properties of null"
    | some v =>
      .ok { score := objLookup v "overall_score"
            reason := objLookup v "reason"
            breakdown :=
              { chunk_relevance := objLookup v "chunk_relevance"
                answer_accuracy := objLookup v "answer_accuracy"
                completeness := objLookup v "completeness" } }

/-! ## Query log (src/logging/index.ts)

`logQueryOutput` does a read-modify-write of the whole log file:
ensure the output directory, read and `JSON.parse` the existing file
(missing file treated as an empty array), push the new record, write the
array back with `JSON.stringify(queries, null, 2)`.  Any thrown error is
caught and reported as a console warning.  The file system is modelled as
an explicit state (directory flag plus optional file contents) with a
fault flag per operation, and the wall clock as a timestamp input. -/

/-- JSON value of one retrieved chunk as serialised into the log. -/
def chunkToJson (c : RetrievedChunk) : Json :=
  .obj [("content", .str c.content), ("metadata", .obj c.metadata)]

/-- The spread of a `QueryResponse` into the logged record, in property
insertion order. -/
def responseFields (r : QueryResponse) : List (String × Json) :=
  [("user_question", .str r.user_question),
   ("system_answer", .str r.system_answer),
   ("chunks_related", .arr (r.chunks_related.map chunkToJson))]

/-- A property whose value may be the JavaScript `undefined`:
`JSON.stringify` drops such a property from the output object. -/
def optField (k : String) : Option Json → List (String × Json)
  | some v => [(k, v)]
  | none => []

/-- Serialisation of the evaluation breakdown. -/
def breakdownToJson (b : EvaluationBreakdown) : Json :=
  .obj (optField "chunk_relevance" b.chunk_relevance ++
        optField "answer_accuracy" b.answer_accuracy ++
        optField "completeness" b.completeness)

/-- Serialisation of an `EvaluationResult`. -/
def evaluationToJson (e : EvaluationResult) : Json :=
  .obj (optField "score" e.score ++ optField "reason" e.reason ++
        [("breakdown", breakdownToJson e.breakdown)])

/-- The logged record: the spread response, then `timestamp`, then the
conditional spread of `evaluation` — an object value is truthy, so the
field appears exactly when an evaluation is present (`undefined` is
falsy and spreads to nothing). -/
def loggedOutputJson (r : QueryResponse) (ts : String) (ev : Option EvaluationResult) : Json :=
  .obj (responseFields r ++ [("timestamp", .str ts)] ++
        (match ev with
         | some e => [("evaluation", evaluationToJson e)]
         | none => []))

/-- File-system state seen by the logger: whether the output directory
exists and the contents of the log file, if present. -/
structure FsState where
  dirExists : Bool
  file : Option String

/-- Fault injection for the three file-system operations the logger
performs; a set flag makes the corresponding call throw. -/
structure FsFaults where
  mkdirFails : Bool
  readFails : Bool
  writeFails : Bool

/-- The fault-free file system. -/
def noFaults : FsFaults := ⟨false, false, false⟩

/-- Final write of the updated array, pretty-printed with indent 2.
Returns the new state and whether a warning was printed. -/
def logWriteStep (faults : FsFaults) (st : FsState) (queries : List Json)
    (record : Json) : FsState × Bool :=
  if faults.writeFails then (st, true)
  else ({ st with file := some (renderJson (Json.arr (queries ++ [record]))) }, false)

/-- `logQueryOutput(response, evaluation?)`: read-modify-write append of
one record, every failure caught as a warning.  A missing file starts
from the empty array; a file whose contents do not parse (SyntaxError
from `JSON.parse`) or parse to a non-array (TypeError from `.push`)
aborts with a warning before any write. -/
def logQueryOutput (faults : FsFaults) (st : FsState) (ts : String)
    (response : QueryResponse) (evaluation : Option EvaluationResult) :
    FsState × Bool :=
  if st.dirExists = false && faults.mkdirFails then (st, true)
  else
    let st1 : FsState := { st with dirExists := true }
    let record := loggedOutputJson response ts evaluation
    match st1.file with
    | none => logWriteStep faults st1 [] record
    | some data =>
      if faults.readFails then (st1, true)
      else
        match parseJson data with
        | some (Json.arr queries) => logWriteStep faults st1 queries record
        | _ => (st1, true)

/-- One call to the logger: its clock reading, response and optional
evaluation. -/
structure LogCall where
  ts : String
  response : QueryResponse
  evaluation : Option EvaluationResult

/-- A sequence of fault-free logger calls threading the file system. -/
def runLog (calls : List LogCall) (st : FsState) : FsState :=
  calls.foldl (fun s c => (logQueryOutput noFaults s c.ts c.response c.evaluation).1) st

/-- Shape check for `new Date().toISOString()` output:
four digit year, dash, two digit month, dash, two digit day, T, two digit
hour, colon, two digit minute, colon, two digit second, dot, three digit
milliseconds, Z. -/
def isISO8601 (s : String) : Bool :=
  match s.data with
  | [y1, y2, y3, y4, d1, mo1, mo2, d2, dd1, dd2, t1, hh1, hh2, c1,
     mi1, mi2, c2, ss1, ss2, p1, f1, f2, f3, z1] =>
    isDigitChar y1 && isDigitChar y2 && isDigitChar y3 && isDigitChar y4 &&
    (d1 == '-') && isDigitChar mo1 && isDigitChar mo2 && (d2 == '-') &&
    isDigitChar dd1 && isDigitChar dd2 && (t1 == 'T') &&
    isDigitChar hh1 && isDigitChar hh2 && (c1 == ':') &&
    isDigitChar mi1 && isDigitChar mi2 && (c2 == ':') &&
    isDigitChar ss1 && isDigitChar ss2 && (p1 == '.') &&
    isDigitChar f1 && isDigitChar f2 && isDigitChar f3 && (z1 == 'Z')
  | _ => false

/-! ## Tail of the query flow (src/query/index.ts)

After the answer is produced, `query` optionally runs the evaluator in a
try/catch that downgrades any evaluation failure to a console warning and
leaves `evaluation` undefined, then unconditionally logs the record and
returns the response.  The completion text the evaluator receives is an
external provider output, taken as input. -/

/-- Result of the post-answer part of `query`. -/
structure QueryTailOut where
  response : QueryResponse
  evalWarned : Bool
  fs : FsState
  logWarned : Bool

/-- Evaluation attempt, warning downgrade, and logging, as in the source
`query` after the answer is computed. -/
def queryTail (faults : FsFaults) (enableEvaluation : Bool) (evalText : String)
    (response : QueryResponse) (st : FsState) (ts : String) : QueryTailOut :=
  let evaluation : Option EvaluationResult :=
    if enableEvaluation then
      match evaluateResponseText evalText with
      | .ok e => some e
      | .error _ => none
    else none
  let evalWarned : Bool :=
    enableEvaluation &&
      (match evaluateResponseText evalText with
       | .ok _ => false
       | .error _ => true)
  let out := logQueryOutput faults st ts response evaluation
  ⟨response, evalWarned, out.1, out.2⟩

/-! ## Environment validation (src/build-index/env.ts, src/query/env.ts)

`process.env` is modelled as an association list, `fs.existsSync` as a
predicate input, and a thrown `Error` as `Except.error` of its message. -/

/-- The process environment: variable name to value. -/
def EnvMap := List (String × String)

/-- First binding of a variable, `none` when absent. -/
def lookupStr : EnvMap → String → Option String
  | [], _ => none
  | (k, v) :: rest, key => if k = key then some v else lookupStr rest key

/-- JavaScript truthiness of `process.env[v]`: present with a non-empty
value (`undefined` and the empty string are falsy). -/
def truthyVar (env : EnvMap) (v : String) : Bool :=
  match lookupStr env v with
  | some s => !(s == "")
  | none => false

/-- The non-null-asserted read `process.env.V!` (always guarded by a
presence check in the source); the empty string stands for the
unreachable absent case. -/
def getVarD (env : EnvMap) (v : String) : String := (lookupStr env v).getD ""

/-- `Array.prototype.join(sep)`. -/
def joinSep (sep : String) : List String → String
  | [] => ""
  | [s] => s
  | s :: rest => s ++ sep ++ joinSep sep rest

/-- `Number.parseInt` in base 10: skip leading whitespace and an optional
sign, then read a maximal digit run; NaN (`none`) when no digit is
found. -/
def parseIntJS (s : String) : Option Int :=
  match skipWs s.data with
  | [] => none
  | c :: rest =>
    if c = '-' then
      match takeDigits rest with
      | ([], _) => none
      | (ds, _) => some (-(digitsToNat ds : Int))
    else if c = '+' then
      match takeDigits rest with
      | ([], _) => none
      | (ds, _) => some (digitsToNat ds)
    else
      match takeDigits (c :: rest) with
      | ([], _) => none
      | (ds, _) => some (digitsToNat ds)

/-- Required variables of the build-time validator. -/
def requiredVarsBuild : List String :=
  ["DOCUMENT_PATH", "VECTOR_STORE_PATH", "EMBEDDING_MODEL", "CHUNK_SIZE",
   "CHUNK_OVERLAP"]

/-- Required variables of the query-time validator. -/
def requiredVarsQuery : List String :=
  ["DOCUMENT_PATH", "VECTOR_STORE_PATH", "EMBEDDING_MODEL", "CHUNK_SIZE",
   "CHUNK_OVERLAP", "LLM_MODEL", "RETRIEVAL_K"]

/-- Configuration returned by `validateEnvironmentVariables`. -/
structure BuildConfig where
  DOCUMENT_PATH : String
  VECTOR_STORE_PATH : String
  EMBEDDING_MODEL : String
  OPENROUTER_API_KEY : String
  OPENAI_API_KEY : String
  CHUNK_OVERLAP : Int
  CHUNK_SIZE : Int

/-- Configuration returned by `loadAndValidateEnv`. -/
structure EnvConfig where
  documentPath : String
  vectorStorePath : String
  embeddingModel : String
  llmModel : String
  retrievalK : Int
  chunkSize : Int
  chunkOverlap : Int
  openaiApiKey : String
  openRouterApiKey : String

/-- Build-time validator (src/build-index/env.ts), checks in source
order: presence of required variables, CHUNK_SIZE positive, CHUNK_OVERLAP
non-negative, CHUNK_OVERLAP < CHUNK_SIZE, document path exists, at least
one API key set. -/
def validateEnvironmentVariables (env : EnvMap) (fsExists : String → Bool) :
    Except String BuildConfig :=
  let missing := requiredVarsBuild.filter (fun v => !truthyVar env v)
  if missing ≠ [] then
    .error ("Missing required environment variables: " ++ joinSep ", " missing)
  else
    match parseIntJS (getVarD env "CHUNK_SIZE") with
    | none => .error "CHUNK_SIZE must be a positive number"
    | some size =>
      if size ≤ 0 then .error "CHUNK_SIZE must be a positive number"
      else
        match parseIntJS (getVarD env "CHUNK_OVERLAP") with
        | none => .error "CHUNK_OVERLAP must be a non-negative number"
        | some overlap =>
          if overlap < 0 then .error "CHUNK_OVERLAP must be a non-negative number"
          else if size ≤ overlap then
            .error "CHUNK_OVERLAP must be less than CHUNK_SIZE"
          else if !(fsExists (getVarD env "DOCUMENT_PATH")) then
            .error ("DOCUMENT_PATH does not exist: " ++ getVarD env "DOCUMENT_PATH")
          else if !truthyVar env "OPENROUTER_API_KEY"
              && !truthyVar env "OPENAI_API_KEY" then
            .error "Either OPENROUTER_API_KEY or OPENAI_API_KEY must be set"
          else
            .ok { DOCUMENT_PATH := getVarD env "DOCUMENT_PATH"
                  VECTOR_STORE_PATH := getVarD env "VECTOR_STORE_PATH"
                  EMBEDDING_MODEL := getVarD env "EMBEDDING_MODEL"
                  OPENROUTER_API_KEY := getVarD env "OPENROUTER_API_KEY"
                  OPENAI_API_KEY := getVarD env "OPENAI_API_KEY"
                  CHUNK_OVERLAP := overlap
                  CHUNK_SIZE := size }

/-- Query-time validator (src/query/env.ts): same checks plus LLM_MODEL
and RETRIEVAL_K (positive), RETRIEVAL_K validated after the chunk
constraints. -/
def loadAndValidateEnv (env : EnvMap) (fsExists : String → Bool) :
    Except String EnvConfig :=
  let missing := requiredVarsQuery.filter (fun v => !truthyVar env v)
  if missing ≠ [] then
    .error ("Missing required environment variables: " ++ joinSep ", " missing)
  else
    match parseIntJS (getVarD env "CHUNK_SIZE") with
    | none => .error "CHUNK_SIZE must be a positive number"
    | some size =>
      if size ≤ 0 then .error "CHUNK_SIZE must be a positive number"
      else
        match parseIntJS (getVarD env "CHUNK_OVERLAP") with
        | none => .error "CHUNK_OVERLAP must be a non-negative number"
        | some overlap =>
          if overlap < 0 then .error "CHUNK_OVERLAP must be a non-negative number"
          else if size ≤ overlap then
            .error "CHUNK_OVERLAP must be less than CHUNK_SIZE"
          else
            match parseIntJS (getVarD env "RETRIEVAL_K") with
            | none => .error "RETRIEVAL_K must be a positive number"
            | some k =>
              if k ≤ 0 then .error "RETRIEVAL_K must be a positive number"
              else if !(fsExists (getVarD env "DOCUMENT_PATH")) then
                .error ("DOCUMENT_PATH does not exist: " ++ getVarD env "DOCUMENT_PATH")
              else if !truthyVar env "OPENROUTER_API_KEY"
                  && !truthyVar env "OPENAI_API_KEY" then
                .error "Either OPENROUTER_API_KEY or OPENAI_API_KEY must be set"
              else
                .ok { documentPath := getVarD env "DOCUMENT_PATH"
                      vectorStorePath := getVarD env "VECTOR_STORE_PATH"
                      embeddingModel := getVarD env "EMBEDDING_MODEL"
                      llmModel := getVarD env "LLM_MODEL"
                      retrievalK := k
                      chunkSize := size
                      chunkOverlap := overlap
                      openaiApiKey := getVarD env "OPENAI_API_KEY"
                      openRouterApiKey := getVarD env "OPENROUTER_API_KEY" }

/-! ## Vector store loading (src/query/vector.ts)

`loadVectorStore` checks `fs.existsSync(env.vectorStorePath)` and throws
before the embeddings client is even constructed; provider traffic
(embedding the question, the completion call) happens later in `query`.
Store existence is an input, provider calls are recorded as a trace. -/

/-- The not-found message thrown by `loadVectorStore`. -/
def notFoundMsg (path : String) : String :=
  "Vector store not found at " ++ path ++ ". Run \x27npm run build:index\x27 first."

/-- A call to a hosted provider made by the query flow. -/
inductive ProviderAction where
  | embedCall
  | completionCall
deriving DecidableEq

/--`loadVectorStore`: fail fast when no index has been saved at the
path. -/
def loadVectorStore (storeExists : Bool) (path : String) : Except String Unit :=
  if storeExists then .ok () else .error (notFoundMsg path)

/-- Provider calls performed by `query`: none before `loadVectorStore`
succeeds; after it, the retriever embeds the question and the RAG chain
invokes the completion model. -/
def queryProviderTrace (storeExists : Bool) (path : String) :
    List ProviderAction × Except String Unit :=
  match loadVectorStore storeExists path with
  | .error e => ([], .error e)
  | .ok _ => ([ProviderAction.embedCall, ProviderAction.completionCall], .ok ())

/-! ## Provider clients (src/utils/openai.ts)

Both factories pick OpenRouter whenever `args.openRouterApiKey` is truthy
(a non-empty string), pointing the OpenAI-compatible client at the
OpenRouter base URL; otherwise they fall back to the OpenAI key with the
default endpoint. -/

/-- Arguments shared by both client factories. -/
structure EmbeddingClientArgs where
  openaiApiKey : String
  openRouterApiKey : String
  modelName : String

/-- Arguments of the chat-client factory. -/
structure OpenApiClientArgs where
  openaiApiKey : String
  openRouterApiKey : String
  modelName : String
  temperature : Rat

/-- An OpenAI-compatible client configuration; `baseURL = none` is the
default OpenAI endpoint. -/
structure OpenAIClientConfig where
  apiKey : String
  modelName : String
  baseURL : Option String

/-- A chat client configuration. -/
structure ChatClientConfig where
  apiKey : String
  modelName : String
  temperature : Rat
  baseURL : Option String

/-- The OpenRouter endpoint configured by `CONFIGURATION`. -/
def openRouterBaseURL : String := "https://openrouter.ai/api/v1"

/-- `GetEmbeddingsClient`. -/
def GetEmbeddingsClient (args : EmbeddingClientArgs) : OpenAIClientConfig :=
  if args.openRouterApiKey ≠ "" then
    ⟨args.openRouterApiKey, args.modelName, some openRouterBaseURL⟩
  else
    ⟨args.openaiApiKey, args.modelName, none⟩

/-- `GetOpenApiClient`. -/
def GetOpenApiClient (args : OpenApiClientArgs) : ChatClientConfig :=
  if args.openRouterApiKey ≠ "" then
    ⟨args.openRouterApiKey, args.modelName, args.temperature, some openRouterBaseURL⟩
  else
    ⟨args.openaiApiKey, args.modelName, args.temperature, none⟩

/-! ## Prompt rendering (src/query/index.ts)

The RAG chain renders the prompt template with `context` = the retrieved
page contents joined by a blank line, in retrieval order, and `question`
passed through verbatim.  The template file lives outside the query
module; it is modelled as a list of literal and placeholder parts. -/

/-- Modelled from the spec: the prompt template (a file outside src/) is
a fixed text with a context placeholder and a question placeholder, here
a list of literal and placeholder parts. -/
inductive TplPart where
  | lit (s : String)
  | varContext
  | varQuestion
deriving DecidableEq

/-- Modelled from the spec: template instantiation substitutes each
placeholder by its value and keeps literal text verbatim
(`ChatPromptTemplate.fromTemplate` is library code outside src/). -/
def renderTemplate : List TplPart → String → String → String
  | [], _, _ => ""
  | .lit s :: rest, c, q => s ++ renderTemplate rest c q
  | .varContext :: rest, c, q => c ++ renderTemplate rest c q
  | .varQuestion :: rest, c, q => q ++ renderTemplate rest c q

/-- The `context` value built by the chain:
`retrievedDocs.map(pageContent).join` with a blank-line separator. -/
def buildContext (docs : List String) : String := joinSep "\n\n" docs

/-- The prompt the completion provider receives. -/
def renderedPrompt (tpl : List TplPart) (docs : List String)
    (question : String) : String :=
  renderTemplate tpl (buildContext docs) question

/-- The needles appear in the haystack, in order and disjointly. -/
def InOrderL (hay : List Char) : List (List Char) → Prop
  | [] => True
  | n :: rest => ∃ a b, hay = a ++ n ++ b ∧ InOrderL b rest

theorem inOrderL_append_left (x : List Char) {hay : List Char}
    {ns : List (List Char)} (h : InOrderL hay ns) : InOrderL (x ++ hay) ns := by
  cases ns with
  | nil => trivial
  | cons n rest =>
    rcases h with ⟨a, b, he, hr⟩
    exact ⟨x ++ a, b, by rw [he]; simp, hr⟩

theorem inOrderL_self (s : List Char) : InOrderL s [s] :=
  ⟨[], [], by simp, trivial⟩

theorem inOrderL_concat {ns ms : List (List Char)} :
    ∀ {s t : List Char}, InOrderL s ns → InOrderL t ms → InOrderL (s ++ t) (ns ++ ms) := by
  induction ns with
  | nil => exact fun h1 h2 => inOrderL_append_left _ h2
  | cons n rest ih =>
    intro s t h1 h2
    rcases h1 with ⟨a, b, he, hr⟩
    exact ⟨a, b ++ t, by rw [he]; simp, ih hr h2⟩

theorem inOrderL_joinSep (sep : String) (docs : List String) :
    InOrderL (joinSep sep docs).data (docs.map String.data) := by
  induction docs with
  | nil => trivial
  | cons s rest ih =>
    cases rest with
    | nil => exact inOrderL_self s.data
    | cons r rs =>
      have hj : joinSep sep (s :: r :: rs) = s ++ sep ++ joinSep sep (r :: rs) := rfl
      refine ⟨[], sep.data ++ (joinSep sep (r :: rs)).data, ?_, ?_⟩
      · rw [hj]; simp [String.data_append]
      · exact inOrderL_append_left sep.data ih

theorem renderTemplate_data_append (xs ys : List TplPart) (c q : String) :
    (renderTemplate (xs ++ ys) c q).data
      = (renderTemplate xs c q).data ++ (renderTemplate ys c q).data := by
  induction xs with
  | nil => simp [renderTemplate]
  | cons x xs ih => cases x <;> simp [renderTemplate, String.data_append, ih]

/-! ## Chunker (src/build-index/index.ts)

The separator list is configured in the source; the splitting algorithm
itself is the library RecursiveCharacterTextSplitter, absent from src/,
and is modelled from the spec: split on the separators from coarsest to
finest wherever a piece exceeds chunkSize, merge adjacent pieces greedily
while a chunk stays within chunkSize, and give consecutive chunks
chunkOverlap characters of shared context. -/

/-- Cons a character onto the first piece of a split. -/
def consHead (c : Char) : List (List Char) → List (List Char)
  | [] => [[c]]
  | p :: ps => (c :: p) :: ps

/-- Modelled from the spec: split on every occurrence of a non-empty
separator, keeping the separator attached to the preceding piece so that
the pieces concatenate back to the text; the fuel is the text length. -/
def splitKeepF (sep : List Char) : Nat → List Char → List (List Char)
  | _, [] => [[]]
  | 0, text => [text]
  | fuel+1, c :: rest =>
    if sep.isPrefixOf (c :: rest) then
      sep :: splitKeepF sep fuel ((c :: rest).drop sep.length)
    else
      consHead c (splitKeepF sep fuel rest)

/-- Modelled from the spec: split on a separator; the empty separator
splits into single characters. -/
def splitKeep (sep : List Char) (text : List Char) : List (List Char) :=
  match sep with
  | [] => text.map (fun c => [c])
  | _ :: _ => splitKeepF sep text.length text

/-- The separator cascade configured for the splitter: paragraph break,
line break, sentence end, space, empty string. -/
def chunkSeparators : List (List Char) :=
  [['\n', '\n'], ['\n'], ['.', ' '], [' '], []]

/-- Modelled from the spec: recursive splitting — a piece within
chunkSize is kept whole, an oversized piece is split again with the next,
finer separator. -/
def chunkPieces : List (List Char) → Nat → List Char → List (List Char)
  | [], _, text => [text]
  | sep :: rest, cap, text =>
    ((splitKeep sep text).map
      (fun p => if p.length ≤ cap then [p] else chunkPieces rest cap p)).flatten

/-- Greedy merge of the current chunk with the following pieces while the
result stays within the capacity. -/
def greedyMergeGo (cap : Nat) (cur : List Char) : List (List Char) → List (List Char)
  | [] => [cur]
  | q :: qs =>
    if cur.length + q.length ≤ cap then greedyMergeGo cap (cur ++ q) qs
    else cur :: greedyMergeGo cap q qs

/-- Modelled from the spec: merge adjacent pieces greedily into chunks of
at most the capacity (an oversized single piece stays its own chunk). -/
def greedyMergeSimple (cap : Nat) : List (List Char) → List (List Char)
  | [] => []
  | p :: ps => greedyMergeGo cap p ps

/-- Prefix every chunk after the first with the trailing overlap of its
predecessor. -/
def addOverlapGo (ovl : Nat) (prev : List Char) : List (List Char) → List (List Char)
  | [] => []
  | d :: ds => (prev.drop (prev.length - ovl) ++ d) :: addOverlapGo ovl d ds

/-- Modelled from the spec: consecutive chunks share the configured
overlap of trailing/leading context. -/
def addOverlap (ovl : Nat) : List (List Char) → List (List Char)
  | [] => []
  | c :: cs => c :: addOverlapGo ovl c cs

/-- Modelled from the spec: the whole chunking step — recursive split on
the configured separator cascade, greedy merge, overlap. -/
def chunkDocument (cap ovl : Nat) (text : List Char) : List (List Char) :=
  addOverlap ovl (greedyMergeSimple cap (chunkPieces chunkSeparators cap text))

theorem consHead_ne_nil (c : Char) (ps : List (List Char)) : consHead c ps ≠ [] := by
  cases ps <;> simp [consHead]

theorem consHead_flatten (c : Char) (ps : List (List Char)) :
    (consHead c ps).flatten = c :: ps.flatten := by
  cases ps <;> simp [consHead]

theorem flatten_map_singleton (l : List Char) : (l.map fun c => [c]).flatten = l := by
  induction l <;> simp_all

theorem splitKeepF_flatten (sep : List Char) (hs : sep ≠ []) :
    ∀ fuel text, text.length ≤ fuel → (splitKeepF sep fuel text).flatten = text := by
  intro fuel
  induction fuel with
  | zero =>
    intro text h
    have ht : text = [] := List.eq_nil_of_length_eq_zero (Nat.le_zero.mp h)
    subst ht
    simp [splitKeepF]
  | succ fuel ih =>
    intro text h
    cases text with
    | nil => simp [splitKeepF]
    | cons c rest =>
      have hle : rest.length + 1 ≤ fuel + 1 := by simpa using h
      by_cases hp : sep.isPrefixOf (c :: rest)
      · have hpre : sep <+: (c :: rest) := List.isPrefixOf_iff_prefix.mp hp
        obtain ⟨t, ht⟩ := hpre
        have hdrop : (c :: rest).drop sep.length = t := by
          rw [← ht]; exact List.drop_left sep t
        have hlt : t.length ≤ fuel := by
          have hlen := congrArg List.length ht
          simp only [List.length_append, List.length_cons] at hlen
          have hsl : 0 < sep.length := List.length_pos.mpr hs
          omega
        have heq : splitKeepF sep (fuel + 1) (c :: rest)
            = sep :: splitKeepF sep fuel ((c :: rest).drop sep.length) := by
          rw [splitKeepF, if_pos hp]
        rw [heq, hdrop]
        simp only [List.flatten_cons, ih t hlt]
        exact ht
      · have heq : splitKeepF sep (fuel + 1) (c :: rest)
            = consHead c (splitKeepF sep fuel rest) := by
          rw [splitKeepF, if_neg hp]
        have hr : rest.length ≤ fuel := by omega
        rw [heq, consHead_flatten, ih rest hr]

theorem splitKeep_flatten (sep text : List Char) : (splitKeep sep text).flatten = text := by
  cases sep with
  | nil => exact flatten_map_singleton text
  | cons a s =>
    exact splitKeepF_flatten (a :: s) (by simp) text.length text (Nat.le_refl _)

theorem splitKeepF_ne_nil (sep : List Char) (fuel : Nat) (text : List Char) :
    splitKeepF sep fuel text ≠ [] := by
  match fuel, text with
  | 0, [] => simp [splitKeepF]
  | fuel + 1, [] => simp [splitKeepF]
  | 0, c :: rest => simp [splitKeepF]
  | fuel + 1, c :: rest =>
    rw [splitKeepF]
    by_cases hp : sep.isPrefixOf (c :: rest)
    · simp [hp]
    · simp only [if_neg hp]
      exact consHead_ne_nil c _

theorem member_length_le_flatten (p : List Char) (L : List (List Char)) (h : p ∈ L) :
    p.length ≤ L.flatten.length := by
  induction L with
  | nil => exact absurd h (List.not_mem_nil p)
  | cons q qs ih =>
    rcases List.mem_cons.mp h with h1 | h2
    · subst h1; simp
    · have := ih h2
      simp only [List.flatten_cons, List.length_append]
      omega

theorem map_fit_flatten (cap : Nat) (g : List Char → List (List Char))
    (L : List (List Char)) (h : ∀ p ∈ L, p.length ≤ cap) :
    ((L.map fun p => if p.length ≤ cap then [p] else g p)).flatten = L := by
  induction L with
  | nil => simp
  | cons q qs ih =>
    have hq : q.length ≤ cap := h q (List.mem_cons_self q qs)
    simp only [List.map_cons, List.flatten_cons, if_pos hq]
    rw [ih fun p hp => h p (List.mem_cons_of_mem q hp)]
    rfl

theorem greedyMergeGo_total (cap : Nat) :
    ∀ (qs : List (List Char)) (cur : List Char),
      cur.length + qs.flatten.length ≤ cap →
      greedyMergeGo cap cur qs = [cur ++ qs.flatten] := by
  intro qs
  induction qs with
  | nil => intro cur h; simp [greedyMergeGo]
  | cons q qs ih =>
    intro cur h
    simp only [List.flatten_cons, List.length_append] at h
    have hcond : cur.length + q.length ≤ cap := by omega
    have harg : (cur ++ q).length + qs.flatten.length ≤ cap := by
      simp only [List.length_append]; omega
    rw [greedyMergeGo, if_pos hcond, ih (cur ++ q) harg]
    simp

theorem greedyMergeSimple_total (cap : Nat) (ps : List (List Char)) (hne : ps ≠ [])
    (h : ps.flatten.length ≤ cap) : greedyMergeSimple cap ps = [ps.flatten] := by
  cases ps with
  | nil => exact absurd rfl hne
  | cons p qs =>
    rw [greedyMergeSimple, greedyMergeGo_total cap qs p (by
      simpa [List.flatten_cons] using h)]
    simp

theorem no_brace_pair_of_not_mem {l : List Char} (h : lbrace ∉ l) :
    ¬ ∃ a b c2, l = a ++ lbrace :: (b ++ rbrace :: c2) :=
  fun ⟨_, _, _, heq⟩ => h (by rw [heq]; simp)

/-- C2: `evaluateResponse` extracts the evaluation by a greedy brace-regex
match over the raw completion text; with no brace pair in the text it
throws the fixed extraction error, and when the matched substring is not
valid JSON the `JSON.parse` failure propagates, so in either case no
result is returned. -/
theorem C2 (text : String) :
    ((¬ ∃ a b c2, text.data = a ++ lbrace :: (b ++ rbrace :: c2)) →
      evaluateResponseText text
        = .error "Failed to extract JSON from evaluation response") ∧
    (∀ m, jsonRegexMatch text.data = some m → parseJsonChars m = none →
      evaluateResponseText text = .error "SyntaxError: Unexpected token in JSON" ∧
      ∀ r, evaluateResponseText text ≠ .ok r) := by
  constructor
  · intro hno
    cases hm : jsonRegexMatch text.data with
    | none => simp only [evaluateResponseText, hm]
    | some m => exact absurd (jrm_some_decomp hm) hno
  · intro m hm hp
    have he : evaluateResponseText text
        = .error "SyntaxError: Unexpected token in JSON" := by
      simp only [evaluateResponseText, hm, hp]
    exact ⟨he, fun r hr => by rw [he] at hr; exact Except.noConfusion hr⟩

theorem C2_witness :
    (evaluateResponseText "completely free text"
      = .error "Failed to extract JSON from evaluation response") ∧
    (evaluateResponseText "ab \x7bnot json\x7d cd"
      = .error "SyntaxError: Unexpected token in JSON" ∧
      ∀ r, evaluateResponseText "ab \x7bnot json\x7d cd" ≠ .ok r) :=
  ⟨(C2 "completely free text").1
      (no_brace_pair_of_not_mem (by decide)),
    (C2 "ab \x7bnot json\x7d cd").2 ("\x7bnot json\x7d".data) rfl rfl⟩

/-- The canonical evaluation object of the spec's testable property 5. -/
def c3ObjText : String :=
  "\x7b\"overall_score\":8.7,\"chunk_relevance\":9,\"answer_accuracy\":8,\"completeness\":9,\"reason\":\"ok\"\x7d"

/-- The characters of `c3ObjText` strictly between its braces. -/
def c3Mid : List Char :=
  "\"overall_score\":8.7,\"chunk_relevance\":9,\"answer_accuracy\":8,\"completeness\":9,\"reason\":\"ok\"".data

/-- The evaluation result the spec expects for `c3ObjText` (8.7 is the
decimal 87 exp -1). -/
def c3Expected : EvaluationResult :=
  { score := some (.num 87 (-1))
    reason := some (.str "ok")
    breakdown :=
      { chunk_relevance := some (.num 9 0)
        answer_accuracy := some (.num 8 0)
        completeness := some (.num 9 0) } }

/-- C3 (amended): when the canonical evaluation object is embedded in
prose whose leading part has no left brace and whose trailing part has no
right brace, `evaluateResponse` returns score 8.7, reason ok, and the
breakdown 9/8/9.  The original claim, which allows arbitrary surrounding
prose, is refuted by `C3_counterexample`: the greedy regex match spans
from the first left brace to the last right brace of the whole text, so
surrounding braces corrupt the extracted substring. -/
theorem C3 (pre post : String) (hpre : lbrace ∉ pre.data)
    (hpost : rbrace ∉ post.data) :
    evaluateResponseText (pre ++ c3ObjText ++ post) = .ok c3Expected := by
  have hobj : c3ObjText.data = lbrace :: (c3Mid ++ [rbrace]) := rfl
  have hms : jsonRegexMatch (pre ++ c3ObjText ++ post).data
      = some (lbrace :: (c3Mid ++ [rbrace])) := by
    have h := @jrm_exact pre.data post.data c3Mid hpre hpost
    simp only [String.data_append, hobj, List.append_assoc, List.cons_append] at h ⊢
    exact h
  simp only [evaluateResponseText, hms]
  rfl

theorem C3_witness :
    (lbrace ∉ ("The verdict is ").data) ∧
    (rbrace ∉ (" overall.").data) ∧
    evaluateResponseText ("The verdict is " ++ c3ObjText ++ " overall.")
      = .ok c3Expected :=
  ⟨by decide, by decide, C3 "The verdict is " " overall." (by decide) (by decide)⟩

/-- C3 counterexample: a completion text that does contain the canonical
object embedded in prose, but whose prose has an earlier left brace; the
greedy match then starts at that brace, the extracted substring is not
valid JSON, and evaluateResponse throws instead of returning the expected
result — refuting the original unconditional claim. -/
theorem C3_counterexample :
    (∃ pre post : String,
      "Score \x7b8.7\x7d: " ++ c3ObjText ++ " end" = pre ++ c3ObjText ++ post) ∧
    evaluateResponseText ("Score \x7b8.7\x7d: " ++ c3ObjText ++ " end")
      = .error "SyntaxError: Unexpected token in JSON" ∧
    evaluateResponseText ("Score \x7b8.7\x7d: " ++ c3ObjText ++ " end")
      ≠ .ok c3Expected := by
  refine ⟨⟨"Score \x7b8.7\x7d: ", " end", rfl⟩, rfl, fun h => ?_⟩
  rw [show evaluateResponseText ("Score \x7b8.7\x7d: " ++ c3ObjText ++ " end")
      = .error "SyntaxError: Unexpected token in JSON" from rfl] at h
  exact Except.noConfusion h

/-- C7: for every path with no saved index, `loadVectorStore` fails with
the not-found error whose message names the path and instructs the caller
to run the index build first, and the query flow performs no provider
call at all in that case. -/
theorem C7 (path : String) :
    loadVectorStore false path = .error (notFoundMsg path) ∧
    (queryProviderTrace false path).1 = [] ∧
    (queryProviderTrace false path).2 = .error (notFoundMsg path) ∧
    (∃ a b, (notFoundMsg path).data
      = a ++ ("Run \x27npm run build:index\x27 first." : String).data ++ b) := by
  refine ⟨rfl, rfl, rfl,
    ("Vector store not found at " : String).data ++ path.data
      ++ (". " : String).data, [], ?_⟩
  have hterm : (". Run \x27npm run build:index\x27 first." : String).data
      = (". " : String).data
        ++ ("Run \x27npm run build:index\x27 first." : String).data := rfl
  simp [notFoundMsg, String.data_append, hterm]

/-- C8: whatever literal text surrounds the two placeholders, the
rendered prompt substitutes the blank-line join of the chunk contents for
the context placeholder and the verbatim question for the question
placeholder, so it contains the joined context verbatim, the question
verbatim, and all chunk texts in retrieval order. -/
theorem C8 (pre mid suf : List TplPart) (docs : List String) (question : String)
    (tpl : List TplPart)
    (htpl : tpl = pre ++ TplPart.varContext :: (mid ++ TplPart.varQuestion :: suf)) :
    (∃ a b, (renderedPrompt tpl docs question).data
        = a ++ (joinSep "\n\n" docs).data ++ b) ∧
    (∃ a b, (renderedPrompt tpl docs question).data
        = a ++ question.data ++ b) ∧
    InOrderL (renderedPrompt tpl docs question).data
      (docs.map String.data ++ [question.data]) := by
  subst htpl
  have h1 := renderTemplate_data_append pre
    (TplPart.varContext :: (mid ++ TplPart.varQuestion :: suf))
    (buildContext docs) question
  have h2 : (renderTemplate (TplPart.varContext :: (mid ++ TplPart.varQuestion :: suf))
        (buildContext docs) question).data
      = (buildContext docs).data
        ++ (renderTemplate (mid ++ TplPart.varQuestion :: suf)
              (buildContext docs) question).data := by
    simp [renderTemplate, String.data_append]
  have h3 := renderTemplate_data_append mid (TplPart.varQuestion :: suf)
    (buildContext docs) question
  have h4 : (renderTemplate (TplPart.varQuestion :: suf)
        (buildContext docs) question).data
      = question.data
        ++ (renderTemplate suf (buildContext docs) question).data := by
    simp [renderTemplate, String.data_append]
  have hd : (renderedPrompt
        (pre ++ TplPart.varContext :: (mid ++ TplPart.varQuestion :: suf))
        docs question).data
      = (renderTemplate pre (buildContext docs) question).data
        ++ ((buildContext docs).data
          ++ ((renderTemplate mid (buildContext docs) question).data
            ++ (question.data
              ++ (renderTemplate suf (buildContext docs) question).data))) := by
    simp [renderedPrompt, h1, h2, h3, h4]
  refine ⟨?_, ?_, ?_⟩
  · exact ⟨(renderTemplate pre (buildContext docs) question).data,
      (renderTemplate mid (buildContext docs) question).data
        ++ (question.data
          ++ (renderTemplate suf (buildContext docs) question).data),
      by rw [hd]; simp [buildContext]⟩
  · exact ⟨(renderTemplate pre (buildContext docs) question).data
        ++ ((buildContext docs).data
          ++ (renderTemplate mid (buildContext docs) question).data),
      (renderTemplate suf (buildContext docs) question).data,
      by rw [hd]; simp⟩
  · rw [hd]
    refine inOrderL_append_left _ (inOrderL_concat (inOrderL_joinSep "\n\n" docs) ?_)
    refine inOrderL_append_left _ ?_
    exact ⟨[], (renderTemplate suf (buildContext docs) question).data, by simp, trivial⟩

theorem C8_witness :
    ([TplPart.lit "Use the context:\n", TplPart.varContext,
        TplPart.lit "\nQuestion: ", TplPart.varQuestion, TplPart.lit "\nAnswer:"]
      = [TplPart.lit "Use the context:\n"]
        ++ TplPart.varContext :: ([TplPart.lit "\nQuestion: "]
          ++ TplPart.varQuestion :: [TplPart.lit "\nAnswer:"])) ∧
    ((∃ a b, (renderedPrompt
        [TplPart.lit "Use the context:\n", TplPart.varContext,
          TplPart.lit "\nQuestion: ", TplPart.varQuestion, TplPart.lit "\nAnswer:"]
        ["A", "B", "C"] "What is the leave policy?").data
        = a ++ (joinSep "\n\n" ["A", "B", "C"]).data ++ b) ∧
      (∃ a b, (renderedPrompt
        [TplPart.lit "Use the context:\n", TplPart.varContext,
          TplPart.lit "\nQuestion: ", TplPart.varQuestion, TplPart.lit "\nAnswer:"]
        ["A", "B", "C"] "What is the leave policy?").data
        = a ++ ("What is the leave policy?" : String).data ++ b) ∧
      InOrderL (renderedPrompt
        [TplPart.lit "Use the context:\n", TplPart.varContext,
          TplPart.lit "\nQuestion: ", TplPart.varQuestion, TplPart.lit "\nAnswer:"]
        ["A", "B", "C"] "What is the leave policy?").data
        ((["A", "B", "C"] : List String).map String.data
          ++ [("What is the leave policy?" : String).data])) :=
  ⟨rfl, C8 [TplPart.lit "Use the context:\n"] [TplPart.lit "\nQuestion: "]
    [TplPart.lit "\nAnswer:"] ["A", "B", "C"] "What is the leave policy?"
    [TplPart.lit "Use the context:\n", TplPart.varContext,
      TplPart.lit "\nQuestion: ", TplPart.varQuestion, TplPart.lit "\nAnswer:"] rfl⟩

/-- C9: with valid parameters, a document no longer than chunkSize comes
out of the chunking step as exactly one chunk holding the full document
text: the splitter's pieces all fit, the greedy merge reassembles them
into a single chunk, and a single chunk takes no overlap prefix. -/
theorem C9 (cap ovl : Nat) (text : List Char) (hcap : 0 < cap)
    (hovl : ovl < cap) (hlen : text.length ≤ cap) :
    chunkDocument cap ovl text = [text] := by
  have hsep : chunkSeparators
      = ['\n', '\n'] :: [['\n'], ['.', ' '], [' '], []] := rfl
  have hflat : (splitKeep ['\n', '\n'] text).flatten = text :=
    splitKeep_flatten _ _
  have hbound : ∀ p ∈ splitKeep ['\n', '\n'] text, p.length ≤ cap := by
    intro p hp
    have h1 := member_length_le_flatten p _ hp
    rw [hflat] at h1
    omega
  have hne : splitKeep ['\n', '\n'] text ≠ [] := by
    show splitKeepF ['\n', '\n'] text.length text ≠ []
    exact splitKeepF_ne_nil _ _ _
  have hcp : chunkPieces chunkSeparators cap text = splitKeep ['\n', '\n'] text := by
    rw [hsep, chunkPieces]
    exact map_fit_flatten cap _ _ hbound
  rw [chunkDocument, hcp,
    greedyMergeSimple_total cap _ hne (by rw [hflat]; exact hlen), hflat]
  rfl

theorem C9_witness :
    (0 < 50) ∧ (10 < 50) ∧
    (("Employees get 20 days of annual leave." : String).data.length ≤ 50) ∧
    chunkDocument 50 10 ("Employees get 20 days of annual leave." : String).data
      = [("Employees get 20 days of annual leave." : String).data] :=
  ⟨by decide, by decide, by decide,
    C9 50 10 ("Employees get 20 days of annual leave." : String).data
      (by decide) (by decide) (by decide)⟩

/-- C10: a non-empty OPENROUTER_API_KEY routes both the embeddings client
and the chat client to the OpenRouter endpoint with the OpenRouter key —
whatever OPENAI_API_KEY holds — while an empty OpenRouter key selects the
OpenAI key and the default endpoint. -/
theorem C10 :
    (∀ args : EmbeddingClientArgs, args.openRouterApiKey ≠ "" →
      (GetEmbeddingsClient args).baseURL = some openRouterBaseURL ∧
      (GetEmbeddingsClient args).apiKey = args.openRouterApiKey) ∧
    (∀ args : OpenApiClientArgs, args.openRouterApiKey ≠ "" →
      (GetOpenApiClient args).baseURL = some openRouterBaseURL ∧
      (GetOpenApiClient args).apiKey = args.openRouterApiKey) ∧
    (∀ args : EmbeddingClientArgs, args.openRouterApiKey = "" →
      (GetEmbeddingsClient args).baseURL = none ∧
      (GetEmbeddingsClient args).apiKey = args.openaiApiKey) ∧
    (∀ args : OpenApiClientArgs, args.openRouterApiKey = "" →
      (GetOpenApiClient args).baseURL = none ∧
      (GetOpenApiClient args).apiKey = args.openaiApiKey) := by
  refine ⟨fun args h => ?_, fun args h => ?_, fun args h => ?_, fun args h => ?_⟩ <;>
    simp [GetEmbeddingsClient, GetOpenApiClient, h]

theorem C10_witness :
    (("or-key" : String) ≠ "") ∧
    (GetEmbeddingsClient ⟨"sk-openai", "or-key", "embed-model"⟩).baseURL
      = some openRouterBaseURL ∧
    (GetEmbeddingsClient ⟨"sk-openai", "or-key", "embed-model"⟩).apiKey = "or-key" ∧
    (GetOpenApiClient ⟨"sk-openai", "or-key", "chat-model", 3/10⟩).baseURL
      = some openRouterBaseURL ∧
    (GetOpenApiClient ⟨"sk-openai", "or-key", "chat-model", 3/10⟩).apiKey = "or-key" ∧
    (GetEmbeddingsClient ⟨"sk-openai", "", "embed-model"⟩).baseURL = none ∧
    (GetEmbeddingsClient ⟨"sk-openai", "", "embed-model"⟩).apiKey = "sk-openai" ∧
    (GetOpenApiClient ⟨"sk-openai", "", "chat-model", 3/10⟩).baseURL = none ∧
    (GetOpenApiClient ⟨"sk-openai", "", "chat-model", 3/10⟩).apiKey = "sk-openai" := by
  have hne : ("or-key" : String) ≠ "" := by decide
  have h1 := C10.1 ⟨"sk-openai", "or-key", "embed-model"⟩ hne
  have h2 := C10.2.1 ⟨"sk-openai", "or-key", "chat-model", 3/10⟩ hne
  have h3 := C10.2.2.1 ⟨"sk-openai", "", "embed-model"⟩ rfl
  have h4 := C10.2.2.2 ⟨"sk-openai", "", "chat-model", 3/10⟩ rfl
  exact ⟨hne, h1.1, h1.2, h2.1, h2.2, h3.1, h3.2, h4.1, h4.2⟩

/-- C6: configuration validation rejects CHUNK_OVERLAP equal to
CHUNK_SIZE with the fixed error, accepts CHUNK_OVERLAP = CHUNK_SIZE - 1
when every other constraint is met, and accepts exactly the range
0 ≤ CHUNK_OVERLAP < CHUNK_SIZE: every accepted configuration satisfies
it.  The equal-values rejection holds in both the build-time and the
query-time validator. -/
theorem C6 :
    (∀ (env : EnvMap) (fsE : String → Bool) (n : Int),
      (requiredVarsBuild.filter fun v => !truthyVar env v) = [] →
      parseIntJS (getVarD env "CHUNK_SIZE") = some n →
      parseIntJS (getVarD env "CHUNK_OVERLAP") = some n →
      0 < n →
      validateEnvironmentVariables env fsE
        = .error "CHUNK_OVERLAP must be less than CHUNK_SIZE") ∧
    (∀ (env : EnvMap) (fsE : String → Bool) (n : Int),
      (requiredVarsBuild.filter fun v => !truthyVar env v) = [] →
      parseIntJS (getVarD env "CHUNK_SIZE") = some n →
      parseIntJS (getVarD env "CHUNK_OVERLAP") = some (n - 1) →
      0 < n →
      fsE (getVarD env "DOCUMENT_PATH") = true →
      (!truthyVar env "OPENROUTER_API_KEY" && !truthyVar env "OPENAI_API_KEY")
        = false →
      ∃ cfg, validateEnvironmentVariables env fsE = .ok cfg ∧
        cfg.CHUNK_OVERLAP = n - 1 ∧ cfg.CHUNK_SIZE = n) ∧
    (∀ (env : EnvMap) (fsE : String → Bool) (cfg : BuildConfig),
      validateEnvironmentVariables env fsE = .ok cfg →
      0 ≤ cfg.CHUNK_OVERLAP ∧ cfg.CHUNK_OVERLAP < cfg.CHUNK_SIZE ∧
        0 < cfg.CHUNK_SIZE) ∧
    (∀ (env : EnvMap) (fsE : String → Bool) (n : Int),
      (requiredVarsQuery.filter fun v => !truthyVar env v) = [] →
      parseIntJS (getVarD env "CHUNK_SIZE") = some n →
      parseIntJS (getVarD env "CHUNK_OVERLAP") = some n →
      0 < n →
      loadAndValidateEnv env fsE
        = .error "CHUNK_OVERLAP must be less than CHUNK_SIZE") := by
  refine ⟨?_, ?_, ?_, ?_⟩
  · intro env fsE n hreq hs ho hn
    have h1 : ¬ (n ≤ 0) := by omega
    have h2 : ¬ (n < 0) := by omega
    simp [validateEnvironmentVariables, hreq, hs, ho, h1, h2]
  · intro env fsE n hreq hs ho hn hdoc hkey
    have h1 : ¬ (n ≤ 0) := by omega
    have h2 : ¬ (n - 1 < 0) := by omega
    have h3 : ¬ (n ≤ n - 1) := by omega
    have hok : validateEnvironmentVariables env fsE = .ok
        { DOCUMENT_PATH := getVarD env "DOCUMENT_PATH"
          VECTOR_STORE_PATH := getVarD env "VECTOR_STORE_PATH"
          EMBEDDING_MODEL := getVarD env "EMBEDDING_MODEL"
          OPENROUTER_API_KEY := getVarD env "OPENROUTER_API_KEY"
          OPENAI_API_KEY := getVarD env "OPENAI_API_KEY"
          CHUNK_OVERLAP := n - 1
          CHUNK_SIZE := n } := by
      simp [validateEnvironmentVariables, hreq, hs, ho, h1, h2, h3, hdoc, hkey]
    exact ⟨_, hok, rfl, rfl⟩
  · intro env fsE cfg h
    rcases hreq : (requiredVarsBuild.filter fun v => !truthyVar env v) with _ | ⟨m, ms⟩
    case cons => simp [validateEnvironmentVariables, hreq] at h
    rcases hs : parseIntJS (getVarD env "CHUNK_SIZE") with _ | size
    · simp [validateEnvironmentVariables, hreq, hs] at h
    · by_cases h1 : size ≤ 0
      · simp [validateEnvironmentVariables, hreq, hs, h1] at h
      · rcases ho : parseIntJS (getVarD env "CHUNK_OVERLAP") with _ | overlap
        · simp [validateEnvironmentVariables, hreq, hs, ho, h1] at h
        · by_cases h2 : overlap < 0
          · simp [validateEnvironmentVariables, hreq, hs, ho, h1, h2] at h
          · by_cases h3 : size ≤ overlap
            · simp [validateEnvironmentVariables, hreq, hs, ho, h1, h2, h3] at h
            · by_cases h4 : (!fsE (getVarD env "DOCUMENT_PATH")) = true
              · simp [validateEnvironmentVariables, hreq, hs, ho, h1, h2, h3, h4] at h
              · by_cases h5 : (!truthyVar env "OPENROUTER_API_KEY"
                    && !truthyVar env "OPENAI_API_KEY") = true
                · simp [validateEnvironmentVariables, hreq, hs, ho,
                    h1, h2, h3, h4, h5] at h
                · simp [validateEnvironmentVariables, hreq, hs, ho,
                    h1, h2, h3, h4, h5] at h
                  rw [← h]
                  refine ⟨?_, ?_, ?_⟩
                  · show (0 : Int) ≤ overlap
                    omega
                  · show overlap < size
                    omega
                  · show (0 : Int) < size
                    omega
  · intro env fsE n hreq hs ho hn
    have h1 : ¬ (n ≤ 0) := by omega
    have h2 : ¬ (n < 0) := by omega
    simp [loadAndValidateEnv, hreq, hs, ho, h1, h2]

theorem C6_witness :
    validateEnvironmentVariables
      [("DOCUMENT_PATH", "./doc.txt"), ("VECTOR_STORE_PATH", "./vs"),
       ("EMBEDDING_MODEL", "e"), ("CHUNK_SIZE", "500"),
       ("CHUNK_OVERLAP", "500"), ("OPENAI_API_KEY", "k")] (fun _ => true)
      = .error "CHUNK_OVERLAP must be less than CHUNK_SIZE" ∧
    (∃ cfg, validateEnvironmentVariables
      [("DOCUMENT_PATH", "./doc.txt"), ("VECTOR_STORE_PATH", "./vs"),
       ("EMBEDDING_MODEL", "e"), ("CHUNK_SIZE", "500"),
       ("CHUNK_OVERLAP", "499"), ("OPENAI_API_KEY", "k")] (fun _ => true)
      = .ok cfg ∧ cfg.CHUNK_OVERLAP = 500 - 1 ∧ cfg.CHUNK_SIZE = 500) ∧
    (0 ≤ (⟨"./doc.txt", "./vs", "e", "", "k", 499, 500⟩ : BuildConfig).CHUNK_OVERLAP ∧
      (⟨"./doc.txt", "./vs", "e", "", "k", 499, 500⟩ : BuildConfig).CHUNK_OVERLAP
        < (⟨"./doc.txt", "./vs", "e", "", "k", 499, 500⟩ : BuildConfig).CHUNK_SIZE ∧
      0 < (⟨"./doc.txt", "./vs", "e", "", "k", 499, 500⟩ : BuildConfig).CHUNK_SIZE) ∧
    loadAndValidateEnv
      [("DOCUMENT_PATH", "./doc.txt"), ("VECTOR_STORE_PATH", "./vs"),
       ("EMBEDDING_MODEL", "e"), ("CHUNK_SIZE", "500"),
       ("CHUNK_OVERLAP", "500"), ("LLM_MODEL", "m"), ("RETRIEVAL_K", "3"),
       ("OPENAI_API_KEY", "k")] (fun _ => true)
      = .error "CHUNK_OVERLAP must be less than CHUNK_SIZE" :=
  ⟨C6.1 [("DOCUMENT_PATH", "./doc.txt"), ("VECTOR_STORE_PATH", "./vs"),
      ("EMBEDDING_MODEL", "e"), ("CHUNK_SIZE", "500"),
      ("CHUNK_OVERLAP", "500"), ("OPENAI_API_KEY", "k")] (fun _ => true) 500
      rfl rfl rfl (by decide),
    C6.2.1 [("DOCUMENT_PATH", "./doc.txt"), ("VECTOR_STORE_PATH", "./vs"),
      ("EMBEDDING_MODEL", "e"), ("CHUNK_SIZE", "500"),
      ("CHUNK_OVERLAP", "499"), ("OPENAI_API_KEY", "k")] (fun _ => true) 500
      rfl rfl rfl (by decide) rfl rfl,
    C6.2.2.1 [("DOCUMENT_PATH", "./doc.txt"), ("VECTOR_STORE_PATH", "./vs"),
      ("EMBEDDING_MODEL", "e"), ("CHUNK_SIZE", "500"),
      ("CHUNK_OVERLAP", "499"), ("OPENAI_API_KEY", "k")] (fun _ => true)
      ⟨"./doc.txt", "./vs", "e", "", "k", 499, 500⟩ rfl,
    C6.2.2.2 [("DOCUMENT_PATH", "./doc.txt"), ("VECTOR_STORE_PATH", "./vs"),
      ("EMBEDDING_MODEL", "e"), ("CHUNK_SIZE", "500"),
      ("CHUNK_OVERLAP", "500"), ("LLM_MODEL", "m"), ("RETRIEVAL_K", "3"),
      ("OPENAI_API_KEY", "k")] (fun _ => true) 500 rfl rfl rfl (by decide)⟩

theorem loggedOutputJson_timestamp (r : QueryResponse) (ts : String)
    (ev : Option EvaluationResult) :
    objLookup (loggedOutputJson r ts ev) "timestamp" = some (.str ts) := by
  cases ev <;> rfl

theorem loggedOutputJson_no_evaluation (r : QueryResponse) (ts : String) :
    objLookup (loggedOutputJson r ts none) "evaluation" = none := rfl

theorem logQueryOutput_fromNone (st : FsState) (hf : st.file = none) (ts : String)
    (r : QueryResponse) (ev : Option EvaluationResult) :
    logQueryOutput noFaults st ts r ev =
      (⟨true, some (renderJson (Json.arr [loggedOutputJson r ts ev]))⟩, false) := by
  simp [logQueryOutput, logWriteStep, noFaults, hf]

theorem logQueryOutput_fromRender (st : FsState) (qs : List Json)
    (hf : st.file = some (renderJson (Json.arr qs))) (ts : String)
    (r : QueryResponse) (ev : Option EvaluationResult) :
    logQueryOutput noFaults st ts r ev =
      (⟨true, some (renderJson (Json.arr (qs ++ [loggedOutputJson r ts ev])))⟩, false) := by
  simp [logQueryOutput, logWriteStep, noFaults, hf, parseJson_renderJson]

theorem runLog_render (calls : List LogCall) : ∀ (qs : List Json) (st : FsState),
    st.file = some (renderJson (Json.arr qs)) →
    (runLog calls st).file = some (renderJson (Json.arr (qs ++
      calls.map fun c => loggedOutputJson c.response c.ts c.evaluation))) := by
  induction calls with
  | nil => intro qs st hf; simpa [runLog] using hf
  | cons c cs ih =>
    intro qs st hf
    have hstep := logQueryOutput_fromRender st qs hf c.ts c.response c.evaluation
    have hfold : runLog (c :: cs) st =
        runLog cs (logQueryOutput noFaults st c.ts c.response c.evaluation).1 := rfl
    rw [hfold, hstep]
    have := ih (qs ++ [loggedOutputJson c.response c.ts c.evaluation])
      ⟨true, some (renderJson (Json.arr (qs ++ [loggedOutputJson c.response c.ts c.evaluation])))⟩ rfl
    rw [this]
    simp

theorem runLog_fromNone (calls : List LogCall) (d : Bool) (hne : calls ≠ []) :
    (runLog calls ⟨d, none⟩).file = some (renderJson (Json.arr
      (calls.map fun c => loggedOutputJson c.response c.ts c.evaluation))) := by
  cases calls with
  | nil => exact absurd rfl hne
  | cons c cs =>
    have hstep := logQueryOutput_fromNone ⟨d, none⟩ rfl c.ts c.response c.evaluation
    have hfold : runLog (c :: cs) ⟨d, none⟩ =
        runLog cs (logQueryOutput noFaults ⟨d, none⟩ c.ts c.response c.evaluation).1 := rfl
    rw [hfold, hstep]
    have := runLog_render cs [loggedOutputJson c.response c.ts c.evaluation]
      ⟨true, some (renderJson (Json.arr [loggedOutputJson c.response c.ts c.evaluation]))⟩ rfl
    rw [this]
    simp

/-- C1: starting from an absent log file, a sequence of fault-free
`logQueryOutput` calls leaves a file that parses as a JSON array holding
exactly one record per call, in append order; every intermediate prefix of
the sequence leaves exactly its own records, so each append preserves all
prior entries; each record carries the (ISO-8601) clock reading of its own
append as its `timestamp` field; a missing file is read as the empty
array. -/
theorem C1 (calls : List LogCall) (d : Bool) (hne : calls ≠ [])
    (hiso : ∀ c ∈ calls, isISO8601 c.ts = true) :
    ∃ f, (runLog calls ⟨d, none⟩).file = some f ∧
      parseJson f = some (Json.arr
        (calls.map fun c => loggedOutputJson c.response c.ts c.evaluation)) ∧
      (calls.map fun c => loggedOutputJson c.response c.ts c.evaluation).length
        = calls.length ∧
      (∀ c ∈ calls,
        objLookup (loggedOutputJson c.response c.ts c.evaluation) "timestamp"
          = some (.str c.ts) ∧ isISO8601 c.ts = true) ∧
      (∀ pre suf, calls = pre ++ suf → pre ≠ [] →
        (runLog pre ⟨d, none⟩).file = some (renderJson (Json.arr
          (pre.map fun c => loggedOutputJson c.response c.ts c.evaluation)))) := by
  refine ⟨renderJson (Json.arr
      (calls.map fun c => loggedOutputJson c.response c.ts c.evaluation)),
    runLog_fromNone calls d hne, parseJson_renderJson _, List.length_map _ _, ?_, ?_⟩
  · intro c hc
    exact ⟨loggedOutputJson_timestamp c.response c.ts c.evaluation, hiso c hc⟩
  · intro pre suf _ hpre
    exact runLog_fromNone pre d hpre

theorem C1_witness :
    (([⟨"2026-02-03T04:05:06.789Z", ⟨"q", "a", []⟩, none⟩] : List LogCall) ≠ []) ∧
    (∀ c ∈ ([⟨"2026-02-03T04:05:06.789Z", ⟨"q", "a", []⟩, none⟩] : List LogCall),
      isISO8601 c.ts = true) ∧
    ∃ f, (runLog [⟨"2026-02-03T04:05:06.789Z", ⟨"q", "a", []⟩, none⟩]
        ⟨false, none⟩).file = some f ∧
      parseJson f = some (Json.arr
        (([⟨"2026-02-03T04:05:06.789Z", ⟨"q", "a", []⟩, none⟩] : List LogCall).map
          fun c => loggedOutputJson c.response c.ts c.evaluation)) ∧
      (([⟨"2026-02-03T04:05:06.789Z", ⟨"q", "a", []⟩, none⟩] : List LogCall).map
          fun c => loggedOutputJson c.response c.ts c.evaluation).length
        = ([⟨"2026-02-03T04:05:06.789Z", ⟨"q", "a", []⟩, none⟩] : List LogCall).length ∧
      (∀ c ∈ ([⟨"2026-02-03T04:05:06.789Z", ⟨"q", "a", []⟩, none⟩] : List LogCall),
        objLookup (loggedOutputJson c.response c.ts c.evaluation) "timestamp"
          = some (.str c.ts) ∧ isISO8601 c.ts = true) ∧
      (∀ pre suf,
        ([⟨"2026-02-03T04:05:06.789Z", ⟨"q", "a", []⟩, none⟩] : List LogCall)
          = pre ++ suf → pre ≠ [] →
        (runLog pre ⟨false, none⟩).file = some (renderJson (Json.arr
          (pre.map fun c => loggedOutputJson c.response c.ts c.evaluation)))) :=
  ⟨by simp, by decide,
    C1 [⟨"2026-02-03T04:05:06.789Z", ⟨"q", "a", []⟩, none⟩] false (by simp) (by decide)⟩

/-- C4: when the evaluator fails, `query` catches the failure, counts it
only as a warning, still logs the record — which then has no `evaluation`
field — and still returns the response; the log write itself succeeds. -/
theorem C4 (response : QueryResponse) (st : FsState) (ts evalText msg : String)
    (heval : evaluateResponseText evalText = .error msg)
    (hok : st.file = none ∨ ∃ qs, st.file = some (renderJson (Json.arr qs))) :
    (queryTail noFaults true evalText response st ts).response = response ∧
    (queryTail noFaults true evalText response st ts).evalWarned = true ∧
    (queryTail noFaults true evalText response st ts).logWarned = false ∧
    (∃ qs, (queryTail noFaults true evalText response st ts).fs.file
        = some (renderJson (Json.arr (qs ++ [loggedOutputJson response ts none])))) ∧
    objLookup (loggedOutputJson response ts none) "evaluation" = none := by
  have hq : queryTail noFaults true evalText response st ts =
      ⟨response, true, (logQueryOutput noFaults st ts response none).1,
        (logQueryOutput noFaults st ts response none).2⟩ := by
    simp [queryTail, heval]
  rcases hok with hf | ⟨qs, hf⟩
  · rw [hq, logQueryOutput_fromNone st hf ts response none]
    exact ⟨rfl, rfl, rfl, ⟨[], rfl⟩, rfl⟩
  · rw [hq, logQueryOutput_fromRender st qs hf ts response none]
    exact ⟨rfl, rfl, rfl, ⟨qs, rfl⟩, rfl⟩

theorem C4_witness :
    evaluateResponseText "sorry, I cannot answer"
      = .error "Failed to extract JSON from evaluation response" ∧
    (queryTail noFaults true "sorry, I cannot answer" ⟨"q", "a", []⟩
        ⟨true, none⟩ "2026-02-03T04:05:06.789Z").response = (⟨"q", "a", []⟩ : QueryResponse) ∧
    (queryTail noFaults true "sorry, I cannot answer" ⟨"q", "a", []⟩
        ⟨true, none⟩ "2026-02-03T04:05:06.789Z").evalWarned = true ∧
    (queryTail noFaults true "sorry, I cannot answer" ⟨"q", "a", []⟩
        ⟨true, none⟩ "2026-02-03T04:05:06.789Z").logWarned = false ∧
    (∃ qs, (queryTail noFaults true "sorry, I cannot answer" ⟨"q", "a", []⟩
        ⟨true, none⟩ "2026-02-03T04:05:06.789Z").fs.file
        = some (renderJson (Json.arr (qs ++
            [loggedOutputJson ⟨"q", "a", []⟩ "2026-02-03T04:05:06.789Z" none])))) ∧
    objLookup (loggedOutputJson ⟨"q", "a", []⟩ "2026-02-03T04:05:06.789Z" none)
      "evaluation" = none :=
  ⟨rfl, C4 ⟨"q", "a", []⟩ ⟨true, none⟩ "2026-02-03T04:05:06.789Z"
    "sorry, I cannot answer" "Failed to extract JSON from evaluation response"
    rfl (Or.inl rfl)⟩

/-- C5: every file-system or parse failure inside `logQueryOutput` — mkdir
failing, the existing file unreadable, its contents not parsing to a JSON
array, or the write failing — is caught: the call returns normally with
only a warning, the log file is left untouched, and the surrounding query
still returns its response unchanged for any fault pattern. -/
theorem C5 (faults : FsFaults) (st : FsState) (ts : String) (r : QueryResponse)
    (ev : Option EvaluationResult)
    (hfail : (st.dirExists = false ∧ faults.mkdirFails = true) ∨
             (faults.readFails = true ∧ st.file.isSome = true) ∨
             (∃ f, st.file = some f ∧ faults.readFails = false ∧
               ∀ qs, parseJson f ≠ some (Json.arr qs)) ∨
             faults.writeFails = true) :
    (logQueryOutput faults st ts r ev).2 = true ∧
    (logQueryOutput faults st ts r ev).1.file = st.file ∧
    (∀ enable evalText,
      (queryTail faults enable evalText r st ts).response = r) := by
  refine ⟨?_, ?_, fun enable evalText => rfl⟩ <;>
  · by_cases hmk : st.dirExists = false ∧ faults.mkdirFails = true
    · simp [logQueryOutput, hmk.1, hmk.2]
    · rcases hfail with ⟨h1, h2⟩ | ⟨h1, h2⟩ | ⟨f, hf, hnr, hnp⟩ | hw
      · exact absurd ⟨h1, h2⟩ hmk
      · rcases Option.isSome_iff_exists.mp h2 with ⟨f, hf⟩
        simp [logQueryOutput, hf, h1, hmk]
      · rcases hv : parseJson f with _ | (_ | _ | ⟨_, _⟩ | _ | es | _) <;>
          first
          | exact absurd hv (hnp _)
          | simp [logQueryOutput, hf, hnr, hv, hmk]
      · cases hf : st.file with
        | none => simp [logQueryOutput, logWriteStep, hf, hw, hmk]
        | some f =>
          by_cases hr : faults.readFails = true
          · simp [logQueryOutput, hf, hr, hmk]
          · rcases hv : parseJson f with _ | v
            · simp [logQueryOutput, hf, hr, hv, hmk]
            · cases v <;>
                simp [logQueryOutput, logWriteStep, hf, hr, hv, hw, hmk]

theorem C5_witness :
    (logQueryOutput ⟨false, false, true⟩ ⟨true, none⟩ "2026-02-03T04:05:06.789Z"
        ⟨"q", "a", []⟩ none).2 = true ∧
    (logQueryOutput ⟨false, false, true⟩ ⟨true, none⟩ "2026-02-03T04:05:06.789Z"
        ⟨"q", "a", []⟩ none).1.file = (⟨true, none⟩ : FsState).file ∧
    (∀ enable evalText,
      (queryTail ⟨false, false, true⟩ enable evalText ⟨"q", "a", []⟩
        ⟨true, none⟩ "2026-02-03T04:05:06.789Z").response
        = (⟨"q", "a", []⟩ : QueryResponse)) :=
  C5 ⟨false, false, true⟩ ⟨true, none⟩ "2026-02-03T04:05:06.789Z" ⟨"q", "a", []⟩
    none (Or.inr (Or.inr (Or.inr rfl)))

end RagFaq
